import Mathlib

/-!
Verification development for the ytree indexing and I/O-scheduling engine.

Each definition below is a shallow embedding of a function of the Python
sources (module and symbol named in its doc comment).  Machine integers are
modelled as `Nat`/`Int`, numpy arrays as lists, and in-place numpy updates as
explicit list updates.  Theorems at the end of the file settle the frozen
claims against these embeddings.
-/

namespace YTree

/-- numpy `cumsum` on a list of naturals, with a running accumulator. -/
def cumsumFrom (acc : Nat) : List Nat → List Nat
  | [] => []
  | x :: xs => (acc + x) :: cumsumFrom (acc + x) xs

/-- numpy `ndarray.cumsum` for a 1-d array of nonnegative integers. -/
def cumsum (l : List Nat) : List Nat := cumsumFrom 0 l

/-! ## ytree/data_structures/save_arbor.py -/

/-- `determine_field_list`, branch for an explicit field list (neither `None`
nor `"all"`): `fields.extend([f for f in ["uid", "desc_uid"] if f not in
fields])`.  The comprehension is evaluated against the original list, then the
missing names are appended. -/
def determine_field_list (fields : List String) : List String :=
  fields ++ (["uid", "desc_uid"].filter (fun f => !(fields.contains f)))

/-- The grouping loop of `save_data_files`: walk the trees in order, adding
each tree's size to the current group; once the running node count exceeds
`max_file_size`, flush the group and start a new one; after the loop a
non-empty trailing group is flushed (`if current_group: my_save(...)`).
Arguments `cg_nnodes`/`cg_ntrees` are the accumulators of the current group;
the result is the pair `(group_nnodes, group_ntrees)`. -/
def saveGroupsLoop (max_file_size : Nat) : List Nat → Nat → Nat → (List Nat × List Nat)
  | [], cg_nnodes, cg_ntrees =>
      if 0 < cg_ntrees then ([cg_nnodes], [cg_ntrees]) else ([], [])
  | s :: rest, cg_nnodes, cg_ntrees =>
      let n := cg_nnodes + s
      let t := cg_ntrees + 1
      if max_file_size < n then
        let g := saveGroupsLoop max_file_size rest 0 0
        (n :: g.1, t :: g.2)
      else
        saveGroupsLoop max_file_size rest n t

/-- `save_data_files` restricted to its observable grouping behaviour: from
the list of `tree.tree_size` values in iteration order, produce the arrays
`group_nnodes` and `group_ntrees`. -/
def save_data_files_groups (sizes : List Nat) (max_file_size : Nat) : List Nat × List Nat :=
  saveGroupsLoop max_file_size sizes 0 0

/-- `my_tree_end = my_tree_size.cumsum()` in `save_data_file`. -/
def my_tree_end (sizes : List Nat) : List Nat := cumsum sizes

/-- `my_tree_start = my_tree_end - my_tree_size` in `save_data_file`. -/
def my_tree_start (sizes : List Nat) : List Nat :=
  List.zipWith (fun e s => e - s) (my_tree_end sizes) sizes

/-- numpy fancy-index assignment `arr[idxs] = v` on a 1-d integer array. -/
def setIndices (l : List Int) (idxs : List Nat) (v : Int) : List Int :=
  idxs.foldl (fun acc i => acc.set i v) l

/-- The `desc_uid` column written by `save_data_file`: each tree contributes
the `desc_uid` values of its records in tree order (record 0 being the tree's
root record); the per-tree arrays are concatenated
(`fdata[fieldname] = uconcatenate(...)`), then
`fdata['desc_uid'][my_tree_start] = -1` forces the value at each tree's start
index to the sentinel. -/
def save_data_file_desc_uid (trees : List (List Int)) : List Int :=
  let sizes := trees.map List.length
  setIndices trees.flatten (my_tree_start sizes) (-1)

/-- The `desc_uid` column written by `save_header_file`: after assembling
`rdata["desc_uid"]` from the per-group root field data, the assignment
`rdata["desc_uid"][:] = -1` overwrites every entry with the sentinel. -/
def save_header_desc_uid (root_desc_uids : List Int) : List Int :=
  root_desc_uids.map (fun _ => (-1 : Int))

/-- `tree_end_index = group_ntrees.cumsum()` in `save_header_file`; on reload
this array becomes the offset index `self._node_io._ei` of `YTreeArbor`. -/
def tree_end_index (group_ntrees : List Nat) : List Nat := cumsum group_ntrees

/-! ## ytree/frontends/ytree/arbor.py -/

/-- numpy `digitize(x, bins)` with `right=False` for monotonically
non-decreasing `bins`: the number of bin edges that are `≤ x`, which for
sorted bins is the index of the first bin edge strictly exceeding `x`. -/
def digitize (x : Nat) (bins : List Nat) : Nat :=
  bins.countP (fun b => b ≤ x)

/-- The comparison underlying `np.argsort(ai)`: order positions by their `ai`
value, ties broken by position (a stable argsort). -/
def argsortRel (ai : List Nat) (i j : Nat) : Prop :=
  ai.getD i 0 < ai.getD j 0 ∨ (ai.getD i 0 = ai.getD j 0 ∧ i ≤ j)

instance argsortRelDecidable (ai : List Nat) : DecidableRel (argsortRel ai) := by
  intro i j
  unfold argsortRel
  infer_instance

/-- `io_order = np.argsort(ai)` in `_node_io_loop_prepare`: the permutation of
`range n` sorting positions by their `ai` value. -/
def argsort (ai : List Nat) : List Nat :=
  List.insertionSort (argsortRel ai) (List.range ai.length)

/-- `return_order = np.empty_like(io_order); return_order[io_order] =
np.arange(io_order.size)`: a scatter writing `k` at position `io_order[k]`. -/
def return_order_of (io_order : List Nat) : List Nat :=
  (List.range io_order.length).foldl
    (fun acc k => acc.set (io_order.getD k 0) k)
    (List.replicate io_order.length 0)

/-- `np.unique` on a 1-d array of naturals: sorted distinct values. -/
def npUnique (l : List Nat) : List Nat :=
  (List.insertionSort (· ≤ ·) l).dedup

/-- `io_order[dfi == i]`: the entries of `io_order` at the positions where
`dfi` holds the value `i`. -/
def selectWhere (io_order dfi : List Nat) (i : Nat) : List Nat :=
  (io_order.zip dfi).filterMap (fun p => if p.2 = i then some p.1 else none)

/-- `YTreeArbor._node_io_loop_prepare`, for a node set with ancillary indices
`ai` and offset index `ei` (the cumulative per-file tree counts): returns
`(udfi, index_list, return_order)` where `udfi` are the indices of the data
files that will be visited (in visiting order), `index_list` the per-file runs
of `io_order`, and `return_order` the inverse permutation. -/
def node_io_loop_prepare (ai ei : List Nat) : List Nat × List (List Nat) × List Nat :=
  let io_order := argsort ai
  let ai_sorted := io_order.map (fun k => ai.getD k 0)
  let return_order := return_order_of io_order
  let dfi := ai_sorted.map (fun x => digitize x ei)
  let udfi := npUnique dfi
  (udfi, udfi.map (fun i => selectWhere io_order dfi i), return_order)

/-! ## ytree/frontends/consistent_trees_hdf5/arbor.py -/

/-- A candidate path as probed by `ConsistentTreesHDF5Arbor._is_valid`:
whether `h5py.is_hdf5` accepts it (a non-raising signature check), and the
names of its top-level attributes. -/
structure CandidatePath where
  isHDF5 : Bool
  attrs : List String

/-- The four top-level attributes `ConsistentTreesHDF5Arbor._is_valid`
requires: `['Nfiles', 'TotNforests', 'TotNhalos', 'TotNtrees']`. -/
def requiredCTHDF5Attrs : List String :=
  ["Nfiles", "TotNforests", "TotNhalos", "TotNtrees"]

/-- The attribute loop of `_is_valid`: `for attr in [...]: if attr not in
f.attrs: return False`, falling through to `return True`. -/
def attrLoop : List String → List String → Bool
  | [], _ => true
  | a :: rest, attrs => if attrs.contains a then attrLoop rest attrs else false

/-- `ConsistentTreesHDF5Arbor._is_valid`: returns `False` (rather than
raising) when the path is not an HDF5 file, otherwise runs the required
attribute loop. -/
def ctHDF5_is_valid (f : CandidatePath) : Bool :=
  if !f.isHDF5 then false
  else attrLoop requiredCTHDF5Attrs f.attrs

/-- The fatal load error `ytree.utilities.exceptions.ArborDataFileEmpty`. -/
inductive ArborError where
  | dataFileEmpty (filename : String) : ArborError
deriving DecidableEq

/-- Python `file.readline` over a file modelled as its list of lines (each
existing line is nonempty since it retains its newline or is the final
unterminated line): index `i` yields line `i`, and the empty string at
end-of-file. -/
def readlineAt (lines : List String) (i : Nat) : String := lines.getD i ""

/-- `ConsistentTreesGroupArbor._parse_parameter_file`: skip the header line,
record `_hoffset`, read the first entry line; `if not line: raise
ArborDataFileEmpty(self.filename)`; on success the entry line is used to
resolve the first data file. -/
def parseParameterFileGroup (lines : List String) (filename : String) :
    Except ArborError String :=
  let line := readlineAt lines 1
  if line = "" then .error (.dataFileEmpty filename) else .ok line

/-- The structured container seen by
`ConsistentTreesHDF5Arbor._parse_parameter_file`: its top-level group
names. -/
structure HDF5Container where
  groups : List String

/-- `ConsistentTreesHDF5Arbor._parse_parameter_file`, restricted to its
emptiness check: `fgroup = f.get('File0'); if fgroup is None: raise
ArborDataFileEmpty(self.filename)`. -/
def parseParameterFileHDF5 (c : HDF5Container) (filename : String) :
    Except ArborError Unit :=
  if c.groups.contains "File0" then .ok () else .error (.dataFileEmpty filename)

/-- Modelled from the spec: the arbor load sequence lives in
`ytree/data_structures/arbor.py`, which is not among the given sources; per
the spec ("the Planter runs once at load", "An empty primary source fails
fatally (DataFileEmpty) before any Node is created"), `_parse_parameter_file`
runs before `_plant_trees`, so a fatal `ArborDataFileEmpty` aborts the load
and the planting step that would construct `TreeNode`s never runs. -/
def loadArbor {α β : Type} (parse : Except ArborError α) (plant : α → List β) :
    Except ArborError (List β) :=
  match parse with
  | .error e => .error e
  | .ok a => .ok (plant a)

/-- Per-file arrays read by `ConsistentTreesHDF5Arbor._plant_trees` from one
data file's access group: unique ids, halo offsets and tree sizes. -/
structure HFileData where
  uids : List Nat
  offsets : List Nat
  sizes : List Nat

instance : Inhabited HFileData := ⟨⟨[], [], []⟩⟩

/-- A root `TreeNode` planted by `ConsistentTreesHDF5Arbor._plant_trees`:
`uid`, owning file index `_fi`, start offset `_si` and end offset `_ei`. -/
structure CTHNode where
  uid : Nat
  fi : Nat
  si : Nat
  ei : Nat
deriving DecidableEq, Repr

/-- The node written for entry `ih` of data file `idf`:
`_si = offsets[ih]`, `_ei = _si + tree_sizes[ih]`. -/
def mkCTHNode (idf : Nat) (df : HFileData) (ih : Nat) : CTHNode :=
  { uid := df.uids.getD ih 0, fi := idf, si := df.offsets.getD ih 0,
    ei := df.offsets.getD ih 0 + df.sizes.getD ih 0 }

/-- `file_offsets = self._file_count.cumsum() - self._file_count` in
`ConsistentTreesHDF5Arbor._plant_trees`. -/
def file_offsets (file_count : List Nat) : List Nat :=
  List.zipWith (fun e c => e - c) (cumsum file_count) file_count

/-- `ConsistentTreesHDF5Arbor._plant_trees`: allocate `self._trees` with
`np.empty(self._ntrees)` (unfilled slots modelled as `none`), then for each
data file `idf` in order write node `ih` at global index
`ih + file_offsets[idf]`. -/
def plantHDF5 (files : List HFileData) (file_count : List Nat) (ntrees : Nat) :
    List (Option CTHNode) :=
  (files.enum).foldl (fun trees p =>
    let ifile := (file_offsets file_count).getD p.1 0
    (List.range p.2.uids.length).foldl (fun acc ih =>
      acc.set (ih + ifile) (some (mkCTHNode p.1 p.2 ih))) trees)
    (List.replicate ntrees none)

/-- The per-file node lists of `_plant_trees`, concatenated in file order,
file indices counted from `i0`. -/
def expectedFrom (i0 : Nat) : List HFileData → List CTHNode
  | [] => []
  | df :: rest =>
      (List.range df.uids.length).map (mkCTHNode i0 df) ++ expectedFrom (i0 + 1) rest

/-! ## ytree/frontends/consistent_trees/arbor.py (manifest-driven planter) -/

/-- One parsed line of `locations.dat` as built by
`ConsistentTreesGroupArbor._plant_trees`:
`[int(x[0]), int(x[1]), int(x[2]), x[3], len(x[0])]` — root id, file id,
start offset, and the length of the root id string.  The file name column
plays no role in offset computation and is elided; the end-of-file probe
`self.data_files[fids[i]]` is keyed here directly by file id. -/
structure LocEntry where
  uid : Nat
  fid : Nat
  si : Nat
  idlen : Nat
deriving DecidableEq, Repr

instance : Inhabited LocEntry := ⟨⟨0, 0, 0, 0⟩⟩

/-- The order of `ldata.sort(key=operator.itemgetter(1, 2))`: ascending
(file id, start offset); Python's sort is stable on ties. -/
def locLe (a b : LocEntry) : Prop :=
  a.fid < b.fid ∨ (a.fid = b.fid ∧ a.si ≤ b.si)

instance locLeDecidable : DecidableRel locLe := by
  intro a b
  unfold locLe
  infer_instance

/-- `lkey = len("tree ")+3`, the width subtracted together with the root id
string length for non-final trees. -/
def ctGroupLkey : Nat := 8

/-- A root planted by the manifest-driven planter: `_fi`, `_si`, `_ei`.
The end offset is an integer, as Python's subtraction is signed. -/
structure LocNode where
  uid : Nat
  fi : Nat
  si : Nat
  ei : Int
deriving DecidableEq, Repr

instance : Inhabited LocNode := ⟨⟨0, 0, 0, 0⟩⟩

/-- `ConsistentTreesGroupArbor._plant_trees` over the parsed manifest lines:
sort the file-id column (`fids.sort()`), stable-sort the entries by
(file id, start offset), mark `same_file = np.diff(fids, append=fids[-1]+1)
== 0`, give each tree with `same_file` the end offset
`ldata[i+1][2] - lkey - tdata[4]`, and each file's last tree its end offset
from an end-of-file probe (`fsize`) of the file `fids[i]`. -/
def plantGroup (entries : List LocEntry) (fsize : Nat → Nat) : List LocNode :=
  let fids := List.insertionSort (· ≤ ·) (entries.map LocEntry.fid)
  let ldata := List.insertionSort locLe entries
  let appendVal := fids.getD (entries.length - 1) 0 + 1
  ldata.enum.map (fun p =>
    if fids.getD (p.1 + 1) appendVal = fids.getD p.1 0 then
      { uid := p.2.uid, fi := p.2.fid, si := p.2.si,
        ei := ((ldata.getD (p.1 + 1) default).si : Int) - ctGroupLkey - p.2.idlen }
    else
      { uid := p.2.uid, fi := p.2.fid, si := p.2.si,
        ei := (fsize (fids.getD p.1 0) : Int) })

/-! ## ytree/frontends/consistent_trees/arbor.py (flat single-file planter) -/

/-- Python `str.find(c, start)` over a character list: index of the first
occurrence of `c` at or after `start` (`none` for Python's `-1`). -/
def findFrom (l : List Char) (c : Char) (start : Nat) : Option Nat :=
  match (l.drop start).findIdx? (fun x => x = c) with
  | some j => some (start + j)
  | none => none

/-- Python `fh.readline()` at absolute position `pos`: the characters from
`pos` through the first newline (inclusive), or through end-of-file when no
newline remains. -/
def readLine (content : List Char) (pos : Nat) : List Char :=
  match (content.drop pos).findIdx? (fun x => x = '\n') with
  | some j => (content.drop pos).take (j + 1)
  | none => content.drop pos

/-- Python `int(...)` on the root-id slice: surrounding non-digits (the
newline kept by an extending `readline`) are ignored, digits are read base
10. -/
def parseIntLoose (l : List Char) : Nat :=
  (l.filter Char.isDigit).foldl (fun a c => 10 * a + (c.toNat - 48)) 0

/-- `lkey = len("tree ")+1` in `ConsistentTreesArbor._plant_trees`. -/
def ctFlatLkey : Nat := 6

/-- The planting state of `ConsistentTreesArbor._plant_trees`: the roots
planted so far (uid, `_si`) in discovery order, and the `_ei` values already
assigned (tree `k` receives its end offset when tree `k+1` is discovered). -/
structure FlatState where
  roots : List (Nat × Nat)
  eis : List Nat
deriving DecidableEq, Repr

/-- The marker loop of `ConsistentTreesArbor._plant_trees`
(`for ih in range(buff.count("#"))`): find the next `#` from `lihash+1`
(here `searchStart`); find that line's newline, extending `buff` by a
`readline` when the newline falls outside the block (`inl` then being
`len(buff)`); parse the root id from `buff[ihash+lkey:inl]`; plant the root
with `_si = offset + inl + 1`; and when a root was already planted, assign
the previous root's `_ei = offset + ihash - 1`.  (A failed `#` search cannot
occur within the counted iterations; it is modelled as an early return.) -/
def innerLoop (content : List Char) (blockStart : Nat) :
    Nat → List Char → Nat → FlatState → (List Char × FlatState)
  | 0, buff, _, st => (buff, st)
  | fuel + 1, buff, searchStart, st =>
    match findFrom buff '#' searchStart with
    | none => (buff, st)
    | some ihash =>
      let ext :=
        match findFrom buff '\n' (ihash + 1) with
        | some inl => (buff, inl)
        | none =>
          let grown := buff ++ readLine content (blockStart + buff.length)
          (grown, grown.length)
      let uid := parseIntLoose ((ext.1.take ext.2).drop (ihash + ctFlatLkey))
      let st' : FlatState :=
        { roots := st.roots ++ [(uid, blockStart + ext.2 + 1)],
          eis := if 0 < st.roots.length
            then st.eis ++ [blockStart + ihash - 1] else st.eis }
      innerLoop content blockStart fuel ext.1 (ihash + 1) st'

/-- The block loop of `ConsistentTreesArbor._plant_trees`: read
`min(block_size, file_size - offset)` characters (`break` on an empty read),
scan the block's counted markers, and continue from `fh.tell()` — the end of
everything read so far, including `readline` extensions. -/
def blockLoop (content : List Char) (blockSize : Nat) :
    Nat → Nat → FlatState → (Nat × FlatState)
  | 0, offset, st => (offset, st)
  | fuel + 1, offset, st =>
    let myBlock := min blockSize (content.length - offset)
    if myBlock = 0 then (offset, st)
    else
      let buff := (content.drop offset).take myBlock
      let scanned := innerLoop content offset (buff.count '#') buff 0 st
      blockLoop content blockSize fuel (offset + scanned.1.length) scanned.2

/-- `ConsistentTreesArbor._plant_trees` for a non-empty catalog: scan
`nblocks = ceil((file_size - hoffset)/block_size)` blocks from the
header-end offset, then assign the last root's `_ei = offset`
(end-of-file).  Returns the `(uid, _si)` roots and the `_ei` array. -/
def plantFlat (content : List Char) (hoffset blockSize : Nat) :
    List (Nat × Nat) × List Nat :=
  let nblocks := (content.length - hoffset + blockSize - 1) / blockSize
  let fin := blockLoop content blockSize nblocks hoffset ⟨[], []⟩
  (fin.2.roots, fin.2.eis ++ [fin.1])

/-- One tree of a flat catalog: the root id as printed on the marker line,
and the record text following the marker line. -/
structure FlatTree where
  idStr : List Char
  body : List Char

/-- The rendered tree: the marker line `#tree <id>\n` followed by the
tree's records. -/
def renderTree (t : FlatTree) : List Char :=
  '#' :: ("tree ".toList ++ t.idStr ++ '\n' :: t.body)

/-- A flat single-file catalog: a comment header of `hoffset` characters
followed by the rendered trees. -/
def renderCatalog (header : List Char) (trees : List FlatTree) : List Char :=
  header ++ (trees.map renderTree).flatten

/-- Marker positions of the rendered catalog: tree `i`'s `#` sits at the
header end plus the lengths of the earlier rendered trees. -/
def markerPositionsFrom (pos : Nat) : List FlatTree → List Nat
  | [] => []
  | t :: ts => pos :: markerPositionsFrom (pos + (renderTree t).length) ts

/-- Positions of the marker lines' terminating newlines: tree `i`'s marker
newline sits `len("#tree ") + len(idStr)` past its marker. -/
def markerNewlinesFrom (pos : Nat) : List FlatTree → List Nat
  | [] => []
  | t :: ts => (pos + 6 + t.idStr.length) :: markerNewlinesFrom (pos + (renderTree t).length) ts

/-- The number of marker positions strictly below `x`. -/
def msCount (ms : List Nat) (x : Nat) : Nat := ms.countP (fun q => q < x)

instance : Inhabited FlatTree := ⟨⟨[], []⟩⟩

/-- The facts about a flat catalog that drive the block scanner: marker
positions `ms` (strictly increasing, starting at the header end, carrying
every `#` at or past the header), and for each marker the position `Ls` of
its line's terminating newline (the first newline past the marker, strictly
before the next marker and before end-of-file). -/
structure FlatCatalogSpec (content : List Char) (hoffset : Nat)
    (ms Ls : List Nat) : Prop where
  len_eq : ms.length = Ls.length
  ms_ne : ms ≠ []
  first_ms : ms.getD 0 0 = hoffset
  mono : List.Pairwise (· < ·) ms
  hash_iff : ∀ p, hoffset ≤ p → p < content.length →
    (content.getD p ' ' = '#' ↔ p ∈ ms)
  ms_lt : ∀ m ∈ ms, m < content.length
  nl_at : ∀ j, j < ms.length → content.getD (Ls.getD j 0) ' ' = '\n'
  nl_first : ∀ j, j < ms.length → ∀ q, ms.getD j 0 < q → q < Ls.getD j 0 →
    content.getD q ' ' ≠ '\n'
  nl_gt : ∀ j, j < ms.length → ms.getD j 0 < Ls.getD j 0
  nl_lt_next : ∀ j, j + 1 < ms.length → Ls.getD j 0 < ms.getD (j + 1) 0
  last_nl_lt : Ls.getD (ms.length - 1) 0 < content.length
  hoff_le : hoffset ≤ content.length

end YTree

namespace YTree

/-! ## Supporting lemmas for the exporter embedding -/

theorem cumsumFrom_length (l : List Nat) : ∀ acc, (cumsumFrom acc l).length = l.length := by
  induction l with
  | nil => intro acc; rfl
  | cons x xs ih => intro acc; simp [cumsumFrom, ih]

theorem cumsumFrom_getD (l : List Nat) : ∀ (acc t : Nat), t < l.length →
    (cumsumFrom acc l).getD t 0 = acc + (l.take (t + 1)).sum := by
  induction l with
  | nil => intro acc t h; simp at h
  | cons x xs ih =>
    intro acc t h
    cases t with
    | zero => simp [cumsumFrom]
    | succ t' =>
      have h' : t' < xs.length := by simpa using h
      simp only [cumsumFrom, List.getD_cons_succ]
      rw [ih (acc + x) t' h']
      simp [List.sum_cons]
      omega

theorem my_tree_start_length (sizes : List Nat) :
    (my_tree_start sizes).length = sizes.length := by
  simp [my_tree_start, my_tree_end, cumsum, cumsumFrom_length]

theorem sum_take_mono (l : List Nat) (u v : Nat) (h : u ≤ v) :
    (l.take u).sum ≤ (l.take v).sum := by
  have hsplit := List.sum_take_add_sum_drop (l.take v) u
  have htt : (l.take v).take u = l.take u := by
    rw [List.take_take]
    congr 1
    omega
  rw [htt] at hsplit
  omega

theorem my_tree_start_getD (sizes : List Nat) (t : Nat) (ht : t < sizes.length) :
    (my_tree_start sizes).getD t 0 = (sizes.take t).sum := by
  have hlen : t < (my_tree_start sizes).length := by
    rw [my_tree_start_length]; exact ht
  rw [List.getD_eq_getElem _ _ hlen]
  unfold my_tree_start
  rw [List.getElem_zipWith]
  have hcs : t < (my_tree_end sizes).length := by
    simp [my_tree_end, cumsum, cumsumFrom_length, ht]
  rw [← List.getD_eq_getElem (my_tree_end sizes) 0 hcs,
      ← List.getD_eq_getElem sizes 0 ht]
  show (cumsumFrom 0 sizes).getD t 0 - sizes.getD t 0 = (sizes.take t).sum
  rw [cumsumFrom_getD sizes 0 t ht]
  rw [List.sum_take_succ sizes t ht]
  rw [List.getD_eq_getElem sizes 0 ht]
  omega

theorem mem_my_tree_start (sizes : List Nat) (x : Nat) :
    x ∈ my_tree_start sizes ↔ ∃ u, u < sizes.length ∧ x = (sizes.take u).sum := by
  rw [List.mem_iff_getElem]
  constructor
  · rintro ⟨n, hn, hx⟩
    have hn' : n < sizes.length := by
      rw [my_tree_start_length] at hn
      exact hn
    refine ⟨n, hn', ?_⟩
    rw [← hx, ← List.getD_eq_getElem _ 0 hn, my_tree_start_getD sizes n hn']
  · rintro ⟨u, hu, hx⟩
    have hu' : u < (my_tree_start sizes).length := by
      rw [my_tree_start_length]; exact hu
    refine ⟨u, hu', ?_⟩
    rw [← List.getD_eq_getElem _ 0 hu', my_tree_start_getD sizes u hu]
    omega

theorem setIndices_length (idxs : List Nat) : ∀ (l : List Int) (v : Int),
    (setIndices l idxs v).length = l.length := by
  induction idxs with
  | nil => intro l v; rfl
  | cons i rest ih =>
    intro l v
    show (setIndices (l.set i v) rest v).length = l.length
    rw [ih, List.length_set]

theorem setIndices_getD (idxs : List Nat) : ∀ (l : List Int) (v : Int) (j : Nat),
    (setIndices l idxs v).getD j 0 =
      if j ∈ idxs ∧ j < l.length then v else l.getD j 0 := by
  induction idxs with
  | nil => intro l v j; simp [setIndices]
  | cons i rest ih =>
    intro l v j
    show (setIndices (l.set i v) rest v).getD j 0 = _
    rw [ih (l.set i v) v j, List.length_set]
    by_cases hrest : j ∈ rest ∧ j < l.length
    · rw [if_pos hrest, if_pos ⟨List.mem_cons_of_mem i hrest.1, hrest.2⟩]
    · rw [if_neg hrest]
      by_cases hlt : j < l.length
      · by_cases hij : j = i
        · subst hij
          rw [if_pos ⟨List.mem_cons_self j rest, hlt⟩]
          have hlt' : j < (l.set j v).length := by
            rw [List.length_set]; exact hlt
          rw [List.getD_eq_getElem _ _ hlt', List.getElem_set_self]
        · have hj : j ∉ rest := fun hm => hrest ⟨hm, hlt⟩
          have : j ∉ (i :: rest) := by
            intro hm
            rcases List.mem_cons.mp hm with h | h
            · exact hij h
            · exact hj h
          rw [if_neg (fun hc => this hc.1)]
          have hlt' : j < (l.set i v).length := by
            rw [List.length_set]; exact hlt
          rw [List.getD_eq_getElem _ _ hlt',
              List.getElem_set_ne (fun h => hij h.symm),
              List.getD_eq_getElem _ _ hlt]
      · rw [if_neg (fun hc => hlt hc.2)]
        have h1 : (l.set i v).length ≤ j := by
          rw [List.length_set]; omega
        rw [List.getD_eq_default _ _ h1, List.getD_eq_default _ _ (by omega)]

theorem map_length_getD {α : Type} (ts : List (List α)) (t : Nat) (ht : t < ts.length) :
    (ts.map List.length).getD t 0 = (ts.getD t []).length := by
  rw [List.getD_eq_getElem _ _ (by simpa using ht), List.getElem_map,
      List.getD_eq_getElem _ _ ht]

theorem flatten_getD {α : Type} (d : α) (ts : List (List α)) : ∀ (t : Nat), t < ts.length →
    ∀ o, o < (ts.getD t []).length →
    ts.flatten.getD (((ts.map List.length).take t).sum + o) d = (ts.getD t []).getD o d := by
  induction ts with
  | nil => intro t ht; simp at ht
  | cons hd tl ih =>
    intro t ht o ho
    cases t with
    | zero =>
      simp only [List.getD_cons_zero] at ho ⊢
      simp only [List.map_cons, List.take_zero, List.sum_nil, Nat.zero_add]
      rw [List.flatten_cons, List.getD_append _ _ _ _ ho]
    | succ t' =>
      have ht' : t' < tl.length := by simpa using ht
      simp only [List.getD_cons_succ] at ho ⊢
      simp only [List.map_cons, List.take_succ_cons, List.sum_cons]
      rw [List.flatten_cons,
          List.getD_append_right _ _ _ _ (by omega),
          show hd.length + ((tl.map List.length).take t').sum + o - hd.length
            = ((tl.map List.length).take t').sum + o from by omega]
      exact ih t' ht' o ho

/-! ## Supporting lemmas for the offset index -/

theorem cumsumFrom_mem_gt (l : List Nat) : ∀ (acc : Nat), (∀ c ∈ l, 0 < c) →
    ∀ e ∈ cumsumFrom acc l, acc < e := by
  induction l with
  | nil => intro acc _ e he; simp [cumsumFrom] at he
  | cons x xs ih =>
    intro acc hpos e he
    simp only [cumsumFrom, List.mem_cons] at he
    have hx : 0 < x := hpos x (List.mem_cons_self x xs)
    rcases he with he | he
    · omega
    · have := ih (acc + x) (fun c hc => hpos c (List.mem_cons_of_mem x hc)) e he
      omega

theorem cumsumFrom_pairwise (l : List Nat) : ∀ (acc : Nat), (∀ c ∈ l, 0 < c) →
    List.Pairwise (· < ·) (cumsumFrom acc l) := by
  induction l with
  | nil => intro acc _; simp [cumsumFrom]
  | cons x xs ih =>
    intro acc hpos
    simp only [cumsumFrom, List.pairwise_cons]
    refine ⟨?_, ih (acc + x) (fun c hc => hpos c (List.mem_cons_of_mem x hc))⟩
    intro e he
    exact cumsumFrom_mem_gt xs (acc + x) (fun c hc => hpos c (List.mem_cons_of_mem x hc)) e he

theorem countP_le_is_first_gt (bins : List Nat) (x : Nat)
    (hs : List.Pairwise (· < ·) bins) :
    (∀ j < bins.countP (fun b => b ≤ x), bins.getD j 0 ≤ x) ∧
    (bins.countP (fun b => b ≤ x) < bins.length →
      x < bins.getD (bins.countP (fun b => b ≤ x)) 0) := by
  induction bins with
  | nil => simp
  | cons b rest ih =>
    rw [List.pairwise_cons] at hs
    obtain ⟨hb, hrest⟩ := hs
    obtain ⟨ih1, ih2⟩ := ih hrest
    by_cases hbx : b ≤ x
    · have hcnt : (b :: rest).countP (fun b => b ≤ x)
          = rest.countP (fun b => b ≤ x) + 1 := by
        rw [List.countP_cons]
        simp [hbx]
      refine ⟨?_, ?_⟩
      · intro j hj
        rw [hcnt] at hj
        cases j with
        | zero => simpa using hbx
        | succ j' =>
          rw [List.getD_cons_succ]
          exact ih1 j' (by omega)
      · intro hlen
        rw [hcnt] at hlen ⊢
        rw [List.getD_cons_succ]
        exact ih2 (by simpa using hlen)
    · have hcnt : (b :: rest).countP (fun b => b ≤ x) = 0 := by
        rw [List.countP_cons]
        simp only [hbx]
        rw [List.countP_eq_zero.mpr]
        · simp
        · intro e he
          have := hb e he
          simp only [decide_eq_true_eq]
          omega
      rw [hcnt]
      refine ⟨fun j hj => by omega, fun _ => ?_⟩
      rw [List.getD_cons_zero]
      omega

/-! ## Theorems: C10 -/

/-- C10: whenever the exporter is given an explicit field list (neither `None`
nor `"all"`), the saved field list contains `uid` and `desc_uid`
(`determine_field_list` appends each of them when missing), and it retains
every field the caller requested. -/
theorem determine_field_list_has_uid_desc_uid (fields : List String) :
    "uid" ∈ determine_field_list fields ∧
    "desc_uid" ∈ determine_field_list fields ∧
    ∀ f ∈ fields, f ∈ determine_field_list fields := by
  refine ⟨?_, ?_, ?_⟩
  · by_cases h : "uid" ∈ fields
    · exact List.mem_append.mpr (Or.inl h)
    · refine List.mem_append.mpr (Or.inr ?_)
      simp [h]
  · by_cases h : "desc_uid" ∈ fields
    · exact List.mem_append.mpr (Or.inl h)
    · refine List.mem_append.mpr (Or.inr ?_)
      simp [h]
  · intro f hf
    exact List.mem_append.mpr (Or.inl hf)

/-! ## Theorems: C1 -/

/-- C1 counterexample: saving 10 single-node trees with group threshold 4 does
not yield 3 groups of sizes `[4, 4, 2]`; the grouping loop flushes only once
the running count strictly exceeds the threshold, so it yields 2 groups of 5
trees each. -/
theorem save_groups_ten_ones_not_442 :
    save_data_files_groups (List.replicate 10 1) 4 = ([5, 5], [5, 5]) ∧
    ([5, 5] : List Nat) ≠ [4, 4, 2] := by
  constructor
  · decide
  · decide

theorem saveGroupsLoop_props (mfs : Nat) :
    ∀ (sizes : List Nat) (a b : Nat), (b = 0 → a = 0) →
      ((saveGroupsLoop mfs sizes a b).2.sum = b + sizes.length) ∧
      ((saveGroupsLoop mfs sizes a b).1.sum = a + sizes.sum) ∧
      (∀ i, i + 1 < (saveGroupsLoop mfs sizes a b).1.length →
        mfs < (saveGroupsLoop mfs sizes a b).1.getD i 0) ∧
      (∀ g ∈ (saveGroupsLoop mfs sizes a b).2, 0 < g) := by
  intro sizes
  induction sizes with
  | nil =>
    intro a b hab
    by_cases hb : 0 < b
    · simp only [saveGroupsLoop, if_pos hb]
      refine ⟨by simp, by simp [hab], ?_, ?_⟩
      · intro i hi
        simp at hi
      · intro g hg
        simp at hg
        omega
    · have hb0 : b = 0 := by omega
      have ha0 : a = 0 := hab hb0
      simp only [saveGroupsLoop, if_neg hb]
      refine ⟨by simp [hb0], by simp [ha0], ?_, ?_⟩
      · intro i hi
        simp at hi
      · intro g hg
        simp at hg
  | cons s rest ih =>
    intro a b _
    by_cases hover : mfs < a + s
    · simp only [saveGroupsLoop, if_pos hover]
      obtain ⟨h1, h2, h3, h4⟩ := ih 0 0 (fun _ => rfl)
      refine ⟨?_, ?_, ?_, ?_⟩
      · simp [h1]
        omega
      · simp [h2]
        omega
      · intro i hi
        match i with
        | 0 =>
          simpa using hover
        | Nat.succ j =>
          simp only [List.length_cons] at hi
          have := h3 j (by omega)
          simpa using this
      · intro g hg
        simp at hg
        rcases hg with hg | hg
        · omega
        · exact h4 g hg
    · simp only [saveGroupsLoop, if_neg hover]
      obtain ⟨h1, h2, h3, h4⟩ := ih (a + s) (b + 1) (by omega)
      refine ⟨?_, ?_, h3, h4⟩
      · rw [h1]
        simp
        omega
      · rw [h2]
        simp
        omega

/-- C1 amended: trees are accumulated into a group until the group's total
node count strictly exceeds `max_file_size`, then the group is flushed and a
new group started, and a non-empty trailing group is always flushed: the group
tree counts sum to the number of trees saved, the group node counts sum to the
total node count, every group but the last has node count exceeding the
threshold, every flushed group is non-empty, and saving 10 single-node trees
with group threshold 4 yields exactly 2 groups of sizes `[5, 5]`. -/
theorem save_data_files_grouping (sizes : List Nat) (mfs : Nat) :
    ((save_data_files_groups sizes mfs).2.sum = sizes.length) ∧
    ((save_data_files_groups sizes mfs).1.sum = sizes.sum) ∧
    (∀ i, i + 1 < (save_data_files_groups sizes mfs).1.length →
      mfs < (save_data_files_groups sizes mfs).1.getD i 0) ∧
    (∀ g ∈ (save_data_files_groups sizes mfs).2, 0 < g) ∧
    save_data_files_groups (List.replicate 10 1) 4 = ([5, 5], [5, 5]) := by
  obtain ⟨h1, h2, h3, h4⟩ := saveGroupsLoop_props mfs sizes 0 0 (fun _ => rfl)
  exact ⟨by simpa using h1, by simpa using h2, h3, h4, by decide⟩

/-! ## Theorems: C2 -/

/-- C2 counterexample: exporting a single tree of two records whose non-root
record has in-memory descendant id 5 leaves that record's descendant id at 5
in the written data; only the tree's first (root) record is forced to the
sentinel, so "every non-root record has its descendant id forced to -1" fails
at this input. -/
theorem save_data_file_keeps_nonroot_desc_uid :
    save_data_file_desc_uid [[7, 5]] = [-1, 5] ∧
    (save_data_file_desc_uid [[7, 5]]).getD 1 0 = 5 ∧ (5 : Int) ≠ -1 := by
  refine ⟨by decide, by decide, by decide⟩

/-- C2 amended: after export, each exported tree's first (root) record has its
descendant id forced to the sentinel (-1) in the written data files, even if
its in-memory descendant id was valid; every other (non-root) record keeps its
in-memory descendant id; and in the header file every aggregated root-level
`desc_uid` value is the sentinel. -/
theorem save_data_file_desc_uid_spec (trees : List (List Int)) :
    ((save_data_file_desc_uid trees).length = trees.flatten.length) ∧
    (∀ t, t < trees.length → 0 < (trees.getD t []).length →
      (save_data_file_desc_uid trees).getD (((trees.map List.length).take t).sum) 0 = -1) ∧
    (∀ t o, t < trees.length → 0 < o → o < (trees.getD t []).length →
      (save_data_file_desc_uid trees).getD (((trees.map List.length).take t).sum + o) 0
        = (trees.getD t []).getD o 0) ∧
    (∀ roots : List Int, save_header_desc_uid roots = List.replicate roots.length (-1)) := by
  refine ⟨?_, ?_, ?_, ?_⟩
  · unfold save_data_file_desc_uid
    rw [setIndices_length]
  · intro t ht hpos
    unfold save_data_file_desc_uid
    rw [setIndices_getD]
    rw [if_pos]
    constructor
    · rw [mem_my_tree_start]
      exact ⟨t, by simpa using ht, rfl⟩
    · rw [List.length_flatten]
      have hstep := List.sum_take_succ (trees.map List.length) t (by simpa using ht)
      have hle : ((trees.map List.length).take (t + 1)).sum ≤ (trees.map List.length).sum := by
        have := List.sum_take_add_sum_drop (trees.map List.length) (t + 1)
        omega
      have hget : ((trees.map List.length).take (t + 1)).sum
          = ((trees.map List.length).take t).sum + (trees.getD t []).length := by
        rw [hstep, ← List.getD_eq_getElem _ 0 (by simpa using ht),
          map_length_getD trees t ht]
      omega
  · intro t o ht ho hlt
    unfold save_data_file_desc_uid
    rw [setIndices_getD]
    rw [if_neg, flatten_getD 0 trees t ht o hlt]
    rintro ⟨hmem, -⟩
    rw [mem_my_tree_start] at hmem
    obtain ⟨u, hu, hequ⟩ := hmem
    have hsum : ((trees.map List.length).take (t + 1)).sum
        = ((trees.map List.length).take t).sum + (trees.getD t []).length := by
      rw [List.sum_take_succ (trees.map List.length) t (by simpa using ht),
        ← List.getD_eq_getElem _ 0 (by simpa using ht), map_length_getD trees t ht]
    rcases Nat.lt_or_ge u (t + 1) with hut | hut
    · have : ((trees.map List.length).take u).sum ≤ ((trees.map List.length).take t).sum :=
        sum_take_mono _ _ _ (by omega)
      omega
    · have h1 : ((trees.map List.length).take (t + 1)).sum
          ≤ ((trees.map List.length).take u).sum :=
        sum_take_mono _ _ _ hut
      have hstep := List.sum_take_succ (trees.map List.length) t (by simpa using ht)
      omega
  · intro roots
    induction roots with
    | nil => rfl
    | cons x xs ih =>
      simp only [save_header_desc_uid, List.map_cons, List.length_cons,
        List.replicate_succ] at ih ⊢
      rw [ih]

/-! ## Supporting lemmas for the scheduler's prepare step -/

instance argsortRelTotal (ai : List Nat) : IsTotal Nat (argsortRel ai) := by
  constructor
  intro a b
  unfold argsortRel
  omega

instance argsortRelTrans (ai : List Nat) : IsTrans Nat (argsortRel ai) := by
  constructor
  intro a b c hab hbc
  unfold argsortRel at hab hbc ⊢
  omega

theorem getD_set_ne_nat (l : List Nat) (i j v : Nat) (h : i ≠ j) :
    (l.set i v).getD j 0 = l.getD j 0 := by
  rw [List.getD_eq_getElem?_getD, List.getElem?_set_ne h, ← List.getD_eq_getElem?_getD]

theorem scatter_fold_untouched (f : Nat → Nat) (ks : List Nat) :
    ∀ (init : List Nat) (p : Nat), (∀ k ∈ ks, f k ≠ p) →
    (ks.foldl (fun acc k => acc.set (f k) k) init).getD p 0 = init.getD p 0 := by
  induction ks with
  | nil => intro init p _; rfl
  | cons k rest ih =>
    intro init p hne
    show (rest.foldl _ (init.set (f k) k)).getD p 0 = _
    rw [ih (init.set (f k) k) p (fun k' hk' => hne k' (List.mem_cons_of_mem k hk'))]
    exact getD_set_ne_nat init (f k) p k (hne k (List.mem_cons_self k rest))

theorem scatter_fold_get (f : Nat → Nat) (ks : List Nat) :
    ∀ (init : List Nat) (k₀ : Nat), k₀ ∈ ks → ks.Nodup →
    (∀ k₁ ∈ ks, ∀ k₂ ∈ ks, f k₁ = f k₂ → k₁ = k₂) →
    f k₀ < init.length →
    (ks.foldl (fun acc k => acc.set (f k) k) init).getD (f k₀) 0 = k₀ := by
  induction ks with
  | nil => intro init k₀ h _ _ _; simp at h
  | cons k rest ih =>
    intro init k₀ hmem hnd hinj hlen
    rw [List.nodup_cons] at hnd
    show (rest.foldl _ (init.set (f k) k)).getD (f k₀) 0 = k₀
    rcases List.mem_cons.mp hmem with hk | hk
    · subst hk
      rw [scatter_fold_untouched f rest (init.set (f k₀) k₀) (f k₀) ?_]
      · have hl : f k₀ < (init.set (f k₀) k₀).length := by
          rw [List.length_set]; exact hlen
        rw [List.getD_eq_getElem _ _ hl, List.getElem_set_self]
      · intro k' hk' heq
        have := hinj k' (List.mem_cons_of_mem _ hk') k₀ (List.mem_cons_self _ _) heq
        subst this
        exact hnd.1 hk'
    · exact ih (init.set (f k) k) k₀ hk hnd.2
        (fun k₁ h₁ k₂ h₂ => hinj k₁ (List.mem_cons_of_mem _ h₁) k₂ (List.mem_cons_of_mem _ h₂))
        (by rw [List.length_set]; exact hlen)

theorem argsort_perm (ai : List Nat) : (argsort ai).Perm (List.range ai.length) :=
  List.perm_insertionSort _ _

theorem argsort_length (ai : List Nat) : (argsort ai).length = ai.length := by
  rw [(argsort_perm ai).length_eq, List.length_range]

theorem argsort_mem_lt (ai : List Nat) (x : Nat) (hx : x ∈ argsort ai) : x < ai.length := by
  have := (argsort_perm ai).mem_iff.mp hx
  simpa using this

theorem argsort_nodup (ai : List Nat) : (argsort ai).Nodup :=
  (argsort_perm ai).nodup_iff.mpr (List.nodup_range _)

theorem return_order_of_inverse (ai : List Nat) (k : Nat) (hk : k < ai.length) :
    (return_order_of (argsort ai)).getD ((argsort ai).getD k 0) 0 = k := by
  unfold return_order_of
  rw [argsort_length]
  apply scatter_fold_get (fun k => (argsort ai).getD k 0) (List.range ai.length)
  · rw [List.mem_range]; exact hk
  · exact List.nodup_range _
  · intro k₁ h₁ k₂ h₂ heq
    rw [List.mem_range] at h₁ h₂
    have hl₁ : k₁ < (argsort ai).length := by rw [argsort_length]; exact h₁
    have hl₂ : k₂ < (argsort ai).length := by rw [argsort_length]; exact h₂
    rw [List.getD_eq_getElem _ _ hl₁, List.getD_eq_getElem _ _ hl₂] at heq
    exact (List.Nodup.getElem_inj_iff (argsort_nodup ai)).mp heq
  · rw [List.length_replicate]
    have hl : k < (argsort ai).length := by rw [argsort_length]; exact hk
    rw [List.getD_eq_getElem _ _ hl]
    exact argsort_mem_lt ai _ (List.getElem_mem hl)

theorem digitize_mono (bins : List Nat) (x y : Nat) (h : x ≤ y) :
    digitize x bins ≤ digitize y bins := by
  unfold digitize
  induction bins with
  | nil => simp
  | cons b rest ih =>
    rw [List.countP_cons, List.countP_cons]
    have hcase : (if (decide (b ≤ x)) = true then 1 else 0)
        ≤ (if (decide (b ≤ y)) = true then 1 else 0) := by
      by_cases hb : b ≤ x
      · simp [hb, Nat.le_trans hb h]
      · simp [hb]
    omega

theorem selectWhere_cons (x e : Nat) (xs ds : List Nat) (i : Nat) :
    selectWhere (x :: xs) (e :: ds) i =
      if e = i then x :: selectWhere xs ds i else selectWhere xs ds i := by
  unfold selectWhere
  rw [List.zip_cons_cons, List.filterMap_cons]
  by_cases he : e = i
  · simp [he]
  · simp [he]

theorem selectWhere_not_mem (xs ds : List Nat) (i : Nat) (h : i ∉ ds) :
    selectWhere xs ds i = [] := by
  unfold selectWhere
  rw [List.filterMap_eq_nil_iff]
  intro p hp
  have := List.of_mem_zip hp
  rw [if_neg]
  intro heir
  exact h (heir ▸ this.2)

theorem selectWhere_replicate_self (d : Nat) : ∀ (k : Nat) (xs : List Nat),
    k ≤ xs.length →
    selectWhere xs (List.replicate k d) d = xs.take k := by
  intro k
  induction k with
  | zero => intro xs _; simp [selectWhere]
  | succ k' ih =>
    intro xs hk
    match xs with
    | [] => simp at hk
    | x :: xs' =>
      rw [List.replicate_succ, selectWhere_cons, if_pos rfl, List.take_succ_cons,
          ih xs' (by simpa using hk)]

theorem selectWhere_replicate_ne (d i : Nat) (hne : d ≠ i) : ∀ (k : Nat) (xs : List Nat),
    selectWhere xs (List.replicate k d) i = [] := by
  intro k
  induction k with
  | zero => intro xs; simp [selectWhere]
  | succ k' ih =>
    intro xs
    match xs with
    | [] => simp [selectWhere]
    | x :: xs' =>
      rw [List.replicate_succ, selectWhere_cons, if_neg hne]
      exact ih xs'

theorem selectWhere_append (xs₁ xs₂ ds₁ ds₂ : List Nat) (h : xs₁.length = ds₁.length)
    (i : Nat) :
    selectWhere (xs₁ ++ xs₂) (ds₁ ++ ds₂) i = selectWhere xs₁ ds₁ i ++ selectWhere xs₂ ds₂ i := by
  unfold selectWhere
  rw [List.zip_append h, List.filterMap_append]

theorem sorted_run_decomp : ∀ (rest : List Nat) (d : Nat),
    List.Pairwise (· ≤ ·) (d :: rest) →
    ∃ k ds₂, 0 < k ∧ d :: rest = List.replicate k d ++ ds₂ ∧ (∀ e ∈ ds₂, d < e) ∧
      List.Pairwise (· ≤ ·) ds₂ := by
  intro rest
  induction rest with
  | nil =>
    intro d _
    exact ⟨1, [], by omega, by simp, by simp, by simp⟩
  | cons d' rest' ih =>
    intro d hs
    rw [List.pairwise_cons] at hs
    obtain ⟨hd, hs'⟩ := hs
    by_cases hdd : d' = d
    · subst hdd
      obtain ⟨k, ds₂, hk, heq, hgt, hs₂⟩ := ih d' hs'
      refine ⟨k + 1, ds₂, by omega, ?_, hgt, hs₂⟩
      rw [List.replicate_succ, List.cons_append, ← heq]
    · refine ⟨1, d' :: rest', by omega, by simp, ?_, hs'⟩
      intro e he
      have hle : d ≤ e := hd e he
      have hdd' : d ≤ d' := hd d' (List.mem_cons_self d' rest')
      rcases List.mem_cons.mp he with h | h
      · subst h; omega
      · rw [List.pairwise_cons] at hs'
        have h2 : d' ≤ e := hs'.1 e h
        omega

theorem dedup_replicate_append (d : Nat) (ds₂ : List Nat) (hd : d ∉ ds₂) :
    ∀ k, 0 < k → (List.replicate k d ++ ds₂).dedup = d :: ds₂.dedup := by
  intro k
  induction k with
  | zero => omega
  | succ k' ih =>
    intro _
    rw [List.replicate_succ, List.cons_append]
    by_cases hk' : 0 < k'
    · rw [List.dedup_cons_of_mem, ih hk']
      exact List.mem_append_left _ (List.mem_replicate.mpr ⟨by omega, rfl⟩)
    · have : k' = 0 := by omega
      subst this
      simp only [List.replicate, List.nil_append]
      exact List.dedup_cons_of_not_mem hd

theorem groupRuns : ∀ (N : Nat) (ds xs : List Nat), ds.length ≤ N →
    List.Pairwise (· ≤ ·) ds → xs.length = ds.length →
    (ds.dedup.map (fun i => selectWhere xs ds i)).flatten = xs := by
  intro N
  induction N with
  | zero =>
    intro ds xs hN _ hlen
    have : ds = [] := List.length_eq_zero.mp (by omega)
    subst this
    have : xs = [] := List.length_eq_zero.mp (by omega)
    subst this
    rfl
  | succ N ih =>
    intro ds xs hN hs hlen
    match hds : ds with
    | [] =>
      have : xs = [] := List.length_eq_zero.mp (by rw [hlen]; rfl)
      subst this
      rfl
    | d :: rest =>
      obtain ⟨k, ds₂, hk, heq, hgt, hs₂⟩ := sorted_run_decomp rest d hs
      have hdne : d ∉ ds₂ := fun hmem => by have := hgt d hmem; omega
      have hlen_ds : (d :: rest).length = k + ds₂.length := by
        rw [heq, List.length_append, List.length_replicate]
      have hkxs : k ≤ xs.length := by omega
      have h_take_len : (xs.take k).length = (List.replicate k d).length := by
        rw [List.length_take, List.length_replicate]
        omega
      have h_head : selectWhere xs (d :: rest) d = xs.take k := by
        conv_lhs => rw [heq, ← List.take_append_drop k xs]
        rw [selectWhere_append _ _ _ _ h_take_len,
            selectWhere_replicate_self d k (xs.take k) (by rw [List.length_take]; omega),
            selectWhere_not_mem _ _ _ hdne, List.append_nil, List.take_take]
        congr 1
        omega
      have h_tail : ∀ i ∈ ds₂.dedup,
          selectWhere xs (d :: rest) i = selectWhere (xs.drop k) ds₂ i := by
        intro i hi
        have hid : d ≠ i := by
          have := hgt i (List.mem_dedup.mp hi)
          omega
        conv_lhs => rw [heq, ← List.take_append_drop k xs]
        rw [selectWhere_append _ _ _ _ h_take_len,
            selectWhere_replicate_ne d i hid, List.nil_append]
      rw [heq, dedup_replicate_append d ds₂ hdne k hk, ← heq, List.map_cons,
          List.flatten_cons, h_head, List.map_congr_left h_tail]
      rw [ih ds₂ (xs.drop k) (by omega) hs₂ (by rw [List.length_drop]; omega)]
      exact List.take_append_drop k xs

theorem npUnique_sorted_eq_dedup (ds : List Nat) (hs : List.Pairwise (· ≤ ·) ds) :
    npUnique ds = ds.dedup := by
  unfold npUnique
  congr 1
  exact List.eq_of_perm_of_sorted (List.perm_insertionSort _ _)
    (List.sorted_insertionSort _ _) hs

theorem prepare_components (ai ei : List Nat) :
    node_io_loop_prepare ai ei =
      (npUnique (((argsort ai).map (fun k => ai.getD k 0)).map (fun x => digitize x ei)),
       (npUnique (((argsort ai).map (fun k => ai.getD k 0)).map (fun x => digitize x ei))).map
         (fun i => selectWhere (argsort ai)
           (((argsort ai).map (fun k => ai.getD k 0)).map (fun x => digitize x ei)) i),
       return_order_of (argsort ai)) := rfl

/-! ## Theorems: C4 -/

/-- C4: for every node set given to `_node_io_loop_prepare`, in any input
order, the returned `return_order` array is the inverse of the file-sort
permutation `io_order` (`return_order[io_order]` is the identity), the
per-file runs of `index_list` concatenate, in file-processing order, exactly
to `io_order`, and results gathered in per-file processing order and
re-indexed by `return_order` are aligned exactly with the caller's original
input order. -/
theorem node_io_loop_prepare_order (ai ei : List Nat) :
    ((List.range ai.length).map
        (fun k => (node_io_loop_prepare ai ei).2.2.getD ((argsort ai).getD k 0) 0)
      = List.range ai.length) ∧
    ((node_io_loop_prepare ai ei).2.1.flatten = argsort ai) ∧
    (∀ data : Nat → Int,
      (List.range ai.length).map
          (fun j => ((node_io_loop_prepare ai ei).2.1.flatten.map data).getD
            ((node_io_loop_prepare ai ei).2.2.getD j 0) 0)
        = (List.range ai.length).map data) := by
  have h22 : (node_io_loop_prepare ai ei).2.2 = return_order_of (argsort ai) := rfl
  have hio_sorted : List.Pairwise (argsortRel ai) (argsort ai) :=
    List.sorted_insertionSort _ _
  have hvals : List.Pairwise (· ≤ ·) ((argsort ai).map (fun k => ai.getD k 0)) :=
    hio_sorted.map _ (fun a b hab => by unfold argsortRel at hab; omega)
  have hdfi : List.Pairwise (· ≤ ·)
      (((argsort ai).map (fun k => ai.getD k 0)).map (fun x => digitize x ei)) :=
    hvals.map _ (fun a b hab => digitize_mono ei a b hab)
  have part2 : (node_io_loop_prepare ai ei).2.1.flatten = argsort ai := by
    have h21 : (node_io_loop_prepare ai ei).2.1 =
        (npUnique (((argsort ai).map (fun k => ai.getD k 0)).map (fun x => digitize x ei))).map
          (fun i => selectWhere (argsort ai)
            (((argsort ai).map (fun k => ai.getD k 0)).map (fun x => digitize x ei)) i) := rfl
    rw [h21, npUnique_sorted_eq_dedup _ hdfi]
    exact groupRuns
      ((((argsort ai).map (fun k => ai.getD k 0)).map (fun x => digitize x ei)).length)
      _ _ le_rfl hdfi (by simp)
  refine ⟨?_, part2, ?_⟩
  · apply List.ext_getElem (by simp)
    intro k h1 h2
    simp only [List.getElem_map, List.getElem_range]
    rw [h22]
    exact return_order_of_inverse ai k (by simpa using h1)
  · intro data
    apply List.ext_getElem (by simp)
    intro j hj1 hj2
    simp only [List.getElem_map, List.getElem_range]
    rw [part2, h22]
    have hj : j < ai.length := by simpa using hj1
    have hjmem : j ∈ argsort ai :=
      (argsort_perm ai).mem_iff.mpr (List.mem_range.mpr hj)
    obtain ⟨k, hk, hik⟩ := List.mem_iff_getElem.mp hjmem
    have hk' : k < ai.length := by rw [← argsort_length ai]; exact hk
    have hio_k : (argsort ai).getD k 0 = j := by
      rw [List.getD_eq_getElem _ _ hk]; exact hik
    have hro : (return_order_of (argsort ai)).getD j 0 = k := by
      rw [← hio_k]
      exact return_order_of_inverse ai k hk'
    rw [hro]
    have hkm : k < ((argsort ai).map data).length := by simpa using hk
    rw [List.getD_eq_getElem _ _ hkm, List.getElem_map]
    rw [hik]

/-! ## Theorems: C5 -/

theorem sum_mem_cumsum (counts : List Nat) (h : counts ≠ []) :
    counts.sum ∈ cumsum counts := by
  have hlen : 0 < counts.length := List.length_pos.mpr h
  have hl : counts.length - 1 < counts.length := by omega
  have hgd := cumsumFrom_getD counts 0 (counts.length - 1) hl
  rw [show counts.length - 1 + 1 = counts.length from by omega, List.take_length] at hgd
  have hl' : counts.length - 1 < (cumsum counts).length := by
    unfold cumsum
    rw [cumsumFrom_length]
    exact hl
  have := List.getElem_mem hl'
  rw [← List.getD_eq_getElem (cumsum counts) 0 hl'] at this
  unfold cumsum at this
  rw [hgd] at this
  simpa using this

/-- C5: for the planted YTreeArbor, the offset-index lookup
(`np.digitize(ai, self._node_io._ei)` over the cumulative per-file tree
counts written by `save_header_file`) maps a queried ancillary position to
the first data file whose cumulative end-offset strictly exceeds it; in
particular, per-file counts `[3, 5, 2]` (cumulative ends `[3, 8, 10]`)
resolve ancillary indices 0, 2, 3, 7, 9 to file ids 0, 0, 1, 1, 2. -/
theorem offset_index_first_exceeding (counts : List Nat) (x : Nat)
    (hpos : ∀ c ∈ counts, 0 < c) (hx : x < counts.sum) :
    (digitize x (tree_end_index counts) < (tree_end_index counts).length) ∧
    (x < (tree_end_index counts).getD (digitize x (tree_end_index counts)) 0) ∧
    (∀ j < digitize x (tree_end_index counts), (tree_end_index counts).getD j 0 ≤ x) ∧
    (tree_end_index [3, 5, 2] = [3, 8, 10] ∧
      List.map (fun q => digitize q (tree_end_index [3, 5, 2])) [0, 2, 3, 7, 9]
        = [0, 0, 1, 1, 2]) := by
  have hsorted : List.Pairwise (· < ·) (tree_end_index counts) :=
    cumsumFrom_pairwise counts 0 hpos
  obtain ⟨h1, h2⟩ := countP_le_is_first_gt (tree_end_index counts) x hsorted
  have hne : counts ≠ [] := by
    intro h
    rw [h] at hx
    simp at hx
  have hlt : digitize x (tree_end_index counts) < (tree_end_index counts).length := by
    rcases Nat.lt_or_ge (digitize x (tree_end_index counts))
        ((tree_end_index counts).length) with h | h
    · exact h
    · exfalso
      have hle : (tree_end_index counts).countP (fun b => b ≤ x)
          ≤ (tree_end_index counts).length := List.countP_le_length _
      have heq : (tree_end_index counts).countP (fun b => b ≤ x)
          = (tree_end_index counts).length := by
        unfold digitize at h
        omega
      have hall := List.countP_eq_length.mp heq
      have hmem := sum_mem_cumsum counts hne
      have := hall counts.sum hmem
      simp only [decide_eq_true_eq] at this
      omega
  exact ⟨hlt, h2 hlt, h1, by decide, by decide⟩

/-- C5 witness: the theorem applied at counts `[3, 5, 2]` and query 4:
the lookup lands on file 1, whose cumulative end 8 exceeds 4 while file 0's
cumulative end 3 does not. -/
theorem offset_index_first_exceeding_witness :
    (digitize 4 (tree_end_index [3, 5, 2]) < (tree_end_index [3, 5, 2]).length) ∧
    (4 < (tree_end_index [3, 5, 2]).getD (digitize 4 (tree_end_index [3, 5, 2])) 0) ∧
    (∀ j < digitize 4 (tree_end_index [3, 5, 2]), (tree_end_index [3, 5, 2]).getD j 0 ≤ 4) := by
  obtain ⟨h1, h2, h3, -⟩ :=
    offset_index_first_exceeding [3, 5, 2] 4 (by decide) (by decide)
  exact ⟨h1, h2, h3⟩

/-! ## Supporting lemmas for the structured planter -/

theorem sum_take_le (l : List Nat) (u : Nat) : (l.take u).sum ≤ l.sum := by
  have := List.sum_take_add_sum_drop l u
  omega

theorem fill_range_fold (mk : Nat → CTHNode) :
    ∀ (len : Nat) (done : List CTHNode) (m : Nat), len ≤ m →
    (List.range len).foldl (fun acc ih => acc.set (ih + done.length) (some (mk ih)))
        (done.map some ++ List.replicate m none)
      = (done ++ (List.range len).map mk).map some ++ List.replicate (m - len) none := by
  intro len
  induction len with
  | zero => intro done m _; simp
  | succ len ih =>
    intro done m hm
    rw [List.range_succ, List.foldl_append, ih done m (by omega)]
    show ((done ++ (List.range len).map mk).map some
        ++ List.replicate (m - len) none).set (len + done.length) (some (mk len)) = _
    rw [List.set_append, if_neg (by simp; omega)]
    have hlen : ((done ++ (List.range len).map mk).map some).length = done.length + len := by
      simp
    rw [hlen, show len + done.length - (done.length + len) = 0 from by omega,
        show m - len = (m - (len + 1)) + 1 from by omega,
        List.replicate_succ, List.set_cons_zero]
    simp [List.map_append, List.append_assoc]

theorem plant_files_fold (fcount : List Nat) :
    ∀ (rest : List HFileData) (fc_pre : List Nat) (done : List CTHNode) (m : Nat),
    fcount = fc_pre ++ rest.map (fun df => df.uids.length) →
    done.length = fc_pre.sum →
    (rest.map (fun df => df.uids.length)).sum ≤ m →
    (List.enumFrom fc_pre.length rest).foldl
        (fun trees p =>
          let ifile := (file_offsets fcount).getD p.1 0
          (List.range p.2.uids.length).foldl (fun acc ih =>
            acc.set (ih + ifile) (some (mkCTHNode p.1 p.2 ih))) trees)
        (done.map some ++ List.replicate m none)
      = ((done ++ expectedFrom fc_pre.length rest).map some)
          ++ List.replicate (m - (rest.map (fun df => df.uids.length)).sum) none := by
  intro rest
  induction rest with
  | nil =>
    intro fc_pre done m _ _ _
    simp [expectedFrom]
  | cons df rest ih =>
    intro fc_pre done m hfc hdone hm
    rw [List.enumFrom_cons, List.foldl_cons]
    have hbound : fc_pre.length < fcount.length := by
      rw [hfc, List.length_append, List.map_cons, List.length_cons]
      omega
    have hifile : (file_offsets fcount).getD fc_pre.length 0 = done.length := by
      have hfo : file_offsets fcount = my_tree_start fcount := rfl
      rw [hfo, my_tree_start_getD fcount fc_pre.length hbound, hfc,
          List.take_left fc_pre, hdone]
    have hsum : (rest.map (fun df => df.uids.length)).sum + df.uids.length
        = ((df :: rest).map (fun df => df.uids.length)).sum := by
      rw [List.map_cons, List.sum_cons]
      omega
    have step :
        (let ifile := (file_offsets fcount).getD (fc_pre.length, df).1 0
         List.foldl (fun acc ih =>
            acc.set (ih + ifile) (some (mkCTHNode (fc_pre.length, df).1 (fc_pre.length, df).2 ih)))
          (List.map some done ++ List.replicate m none)
          (List.range (fc_pre.length, df).2.uids.length))
        = ((done ++ (List.range df.uids.length).map (mkCTHNode fc_pre.length df)).map some)
            ++ List.replicate (m - df.uids.length) none := by
      show (List.range df.uids.length).foldl
          (fun acc ih => acc.set (ih + (file_offsets fcount).getD fc_pre.length 0)
            (some (mkCTHNode fc_pre.length df ih)))
          (done.map some ++ List.replicate m none) = _
      rw [hifile]
      exact fill_range_fold (mkCTHNode fc_pre.length df) df.uids.length done m
        (by rw [List.map_cons, List.sum_cons] at hm; omega)
    rw [step]
    have ihres := ih (fc_pre ++ [df.uids.length])
      (done ++ (List.range df.uids.length).map (mkCTHNode fc_pre.length df))
      (m - df.uids.length)
      (by rw [hfc, List.map_cons, List.append_assoc, List.singleton_append])
      (by rw [List.length_append, List.sum_append, hdone]; simp)
      (by rw [List.map_cons, List.sum_cons] at hm; omega)
    rw [show fc_pre.length + 1 = (fc_pre ++ [df.uids.length]).length from by simp, ihres,
        show (fc_pre ++ [df.uids.length]).length = fc_pre.length + 1 from by simp]
    have hexp : expectedFrom fc_pre.length (df :: rest)
        = (List.range df.uids.length).map (mkCTHNode fc_pre.length df)
          ++ expectedFrom (fc_pre.length + 1) rest := rfl
    rw [hexp, ← List.append_assoc,
        show m - df.uids.length - (rest.map (fun df => df.uids.length)).sum
            = m - ((df :: rest).map (fun df => df.uids.length)).sum from by
          rw [List.map_cons, List.sum_cons]; omega]

theorem expectedFrom_length : ∀ (files : List HFileData) (i0 : Nat),
    (expectedFrom i0 files).length = (files.map (fun df => df.uids.length)).sum := by
  intro files
  induction files with
  | nil => intro i0; rfl
  | cons df rest ih =>
    intro i0
    rw [expectedFrom, List.length_append, List.length_map, List.length_range,
        List.map_cons, List.sum_cons, ih (i0 + 1)]

instance : Inhabited CTHNode := ⟨⟨0, 0, 0, 0⟩⟩

theorem expectedFrom_getD : ∀ (files : List HFileData) (i0 idf : Nat), idf < files.length →
    ∀ ih, ih < (files.getD idf default).uids.length →
    (expectedFrom i0 files).getD
        (((files.map (fun df => df.uids.length)).take idf).sum + ih) default
      = mkCTHNode (i0 + idf) (files.getD idf default) ih := by
  intro files
  induction files with
  | nil => intro i0 idf h; simp at h
  | cons df rest ihf =>
    intro i0 idf hidf ih hih
    cases idf with
    | zero =>
      simp only [List.getD_cons_zero] at hih ⊢
      rw [expectedFrom]
      simp only [List.map_cons, List.take_zero, List.sum_nil, Nat.zero_add]
      have hlt : ih < ((List.range df.uids.length).map (mkCTHNode i0 df)).length := by
        simpa using hih
      rw [List.getD_append _ _ _ _ hlt, List.getD_eq_getElem _ _ hlt,
          List.getElem_map, List.getElem_range, Nat.add_zero]
    | succ idf' =>
      have hidf' : idf' < rest.length := by simpa using hidf
      simp only [List.getD_cons_succ] at hih ⊢
      rw [expectedFrom]
      simp only [List.map_cons, List.take_succ_cons, List.sum_cons]
      rw [List.getD_append_right _ _ _ _ (by simp; omega)]
      have harith : df.uids.length + ((rest.map (fun df => df.uids.length)).take idf').sum + ih
          - ((List.range df.uids.length).map (mkCTHNode i0 df)).length
        = ((rest.map (fun df => df.uids.length)).take idf').sum + ih := by
        simp
        omega
      rw [harith, ihf (i0 + 1) idf' hidf' ih hih,
          show i0 + 1 + idf' = i0 + (idf' + 1) from by omega]

/-! ## Theorems: C8 -/

/-- C8: in the structured/binary planter, every tree's end offset equals its
start offset plus its size as read from the per-file arrays, and trees from
multiple files are concatenated via running per-file totals: the planted
array is exactly the per-file node lists concatenated in file order, and tree
`ih` of file `idf` sits at global index `ih` plus the cumulative count of all
earlier files. -/
theorem plantHDF5_concatenates (files : List HFileData) (file_count : List Nat) (ntrees : Nat)
    (hcount : file_count = files.map (fun df => df.uids.length))
    (hnt : ntrees = (files.map (fun df => df.uids.length)).sum) :
    plantHDF5 files file_count ntrees = (expectedFrom 0 files).map some ∧
    (∀ idf, idf < files.length → ∀ ih, ih < (files.getD idf default).uids.length →
      (plantHDF5 files file_count ntrees).getD (ih + (file_count.take idf).sum) none
        = some (mkCTHNode idf (files.getD idf default) ih)) ∧
    (∀ idf df ih, (mkCTHNode idf df ih).ei
        = (mkCTHNode idf df ih).si + df.sizes.getD ih 0) := by
  have h1 : plantHDF5 files file_count ntrees = (expectedFrom 0 files).map some := by
    have hfold := plant_files_fold file_count files [] [] ntrees
      (by rw [List.nil_append]; exact hcount) rfl (le_of_eq hnt.symm)
    rw [show ([] : List Nat).length = 0 from rfl] at hfold
    rw [show ntrees - (files.map (fun df => df.uids.length)).sum = 0 from by omega] at hfold
    rw [List.replicate_zero, List.append_nil, List.nil_append, List.map_nil,
        List.nil_append] at hfold
    unfold plantHDF5
    exact hfold
  refine ⟨h1, ?_, fun idf df ih => rfl⟩
  intro idf hidf ih hih
  rw [h1]
  have hposlt : ((files.map (fun df => df.uids.length)).take idf).sum + ih
      < (expectedFrom 0 files).length := by
    rw [expectedFrom_length]
    have hstep := List.sum_take_succ (files.map (fun df => df.uids.length)) idf
      (by simpa using hidf)
    have hle := sum_take_le (files.map (fun df => df.uids.length)) (idf + 1)
    have hget : ((files.map (fun df => df.uids.length)).take (idf + 1)).sum
        = ((files.map (fun df => df.uids.length)).take idf).sum
          + (files.getD idf default).uids.length := by
      rw [hstep, List.getElem_map, List.getD_eq_getElem _ _ hidf]
    omega
  rw [show ih + (file_count.take idf).sum
      = ((files.map (fun df => df.uids.length)).take idf).sum + ih from by
    rw [hcount]; omega]
  have hmap : ((expectedFrom 0 files).map some).getD
      (((files.map (fun df => df.uids.length)).take idf).sum + ih) none
      = some ((expectedFrom 0 files).getD
          (((files.map (fun df => df.uids.length)).take idf).sum + ih) default) := by
    rw [List.getD_eq_getElem _ _ (by simpa using hposlt), List.getElem_map,
        List.getD_eq_getElem _ _ hposlt]
  rw [hmap, expectedFrom_getD files 0 idf hidf ih hih, Nat.zero_add]

/-- C8 witness: two files with 1 and 2 trees; the planted array is the
concatenation, and tree 1 of file 1 lands at global index 1 + 1 = 2. -/
theorem plantHDF5_concatenates_witness :
    plantHDF5 [⟨[10], [0], [4]⟩, ⟨[20, 30], [4, 8], [4, 2]⟩] [1, 2] 3
      = (expectedFrom 0 [⟨[10], [0], [4]⟩, ⟨[20, 30], [4, 8], [4, 2]⟩]).map some ∧
    (plantHDF5 [⟨[10], [0], [4]⟩, ⟨[20, 30], [4, 8], [4, 2]⟩] [1, 2] 3).getD
        (1 + (([1, 2] : List Nat).take 1).sum) none
      = some (mkCTHNode 1 (([⟨[10], [0], [4]⟩,
          ⟨[20, 30], [4, 8], [4, 2]⟩] : List HFileData).getD 1 default) 1) := by
  obtain ⟨h1, h2, -⟩ := plantHDF5_concatenates
    [⟨[10], [0], [4]⟩, ⟨[20, 30], [4, 8], [4, 2]⟩] [1, 2] 3 (by decide) (by decide)
  exact ⟨h1, h2 1 (by decide) 1 (by decide)⟩

/-! ## Supporting lemmas for the manifest-driven planter -/

instance locLeTotal : IsTotal LocEntry locLe := by
  constructor
  intro a b
  unfold locLe
  omega

instance locLeTrans : IsTrans LocEntry locLe := by
  constructor
  intro a b c hab hbc
  unfold locLe at hab hbc ⊢
  omega

theorem fids_column (entries : List LocEntry) :
    List.insertionSort (· ≤ ·) (entries.map LocEntry.fid)
      = (List.insertionSort locLe entries).map LocEntry.fid := by
  apply List.eq_of_perm_of_sorted (r := ((· ≤ ·) : Nat → Nat → Prop))
  · exact (List.perm_insertionSort _ _).trans
      (((List.perm_insertionSort locLe entries).map _).symm)
  · exact List.sorted_insertionSort _ _
  · exact List.Pairwise.map _ (fun a b h => by unfold locLe at h; omega)
      (List.sorted_insertionSort locLe entries)

theorem fids_getD (entries : List LocEntry) (j : Nat) (hj : j < entries.length) :
    ∀ d, (List.insertionSort (· ≤ ·) (entries.map LocEntry.fid)).getD j d
      = ((List.insertionSort locLe entries).getD j default).fid := by
  intro d
  rw [fids_column]
  have hl : j < ((List.insertionSort locLe entries).map LocEntry.fid).length := by
    rw [List.length_map, List.length_insertionSort]
    exact hj
  rw [List.getD_eq_getElem _ _ hl, List.getElem_map,
      List.getD_eq_getElem _ _ (by rw [List.length_insertionSort]; exact hj)]

theorem plantGroup_getD (entries : List LocEntry) (fsize : Nat → Nat) (i : Nat)
    (hi : i < entries.length) :
    (plantGroup entries fsize).getD i default
      = (if (List.insertionSort (· ≤ ·) (entries.map LocEntry.fid)).getD (i + 1)
            ((List.insertionSort (· ≤ ·) (entries.map LocEntry.fid)).getD
              (entries.length - 1) 0 + 1)
          = (List.insertionSort (· ≤ ·) (entries.map LocEntry.fid)).getD i 0 then
          { uid := ((List.insertionSort locLe entries).getD i default).uid,
            fi := ((List.insertionSort locLe entries).getD i default).fid,
            si := ((List.insertionSort locLe entries).getD i default).si,
            ei := (((List.insertionSort locLe entries).getD (i + 1) default).si : Int)
              - ctGroupLkey - ((List.insertionSort locLe entries).getD i default).idlen }
        else
          { uid := ((List.insertionSort locLe entries).getD i default).uid,
            fi := ((List.insertionSort locLe entries).getD i default).fid,
            si := ((List.insertionSort locLe entries).getD i default).si,
            ei := (fsize ((List.insertionSort (· ≤ ·) (entries.map LocEntry.fid)).getD i 0)
              : Int) }) := by
  unfold plantGroup
  have h1 : i < ((List.insertionSort locLe entries).enum.map (fun p =>
      if (List.insertionSort (· ≤ ·) (entries.map LocEntry.fid)).getD (p.1 + 1)
          ((List.insertionSort (· ≤ ·) (entries.map LocEntry.fid)).getD
            (entries.length - 1) 0 + 1)
        = (List.insertionSort (· ≤ ·) (entries.map LocEntry.fid)).getD p.1 0 then
        ({ uid := p.2.uid, fi := p.2.fid, si := p.2.si,
           ei := (((List.insertionSort locLe entries).getD (p.1 + 1) default).si : Int)
             - ctGroupLkey - p.2.idlen } : LocNode)
      else
        ({ uid := p.2.uid, fi := p.2.fid, si := p.2.si,
           ei := (fsize ((List.insertionSort (· ≤ ·) (entries.map LocEntry.fid)).getD p.1 0)
             : Int) } : LocNode))).length := by
    simp [List.enum_length, List.length_insertionSort, hi]
  rw [List.getD_eq_getElem _ _ h1, List.getElem_map, List.getElem_enum]
  dsimp only
  have h2 : i < (List.insertionSort locLe entries).length := by
    rw [List.length_insertionSort]
    exact hi
  rw [List.getD_eq_getElem _ _ h2]

/-! ## Theorems: C3 -/

/-- C3 counterexample: a single-file manifest holding trees with root id
strings of different lengths (ids 5, 100, 7 at offsets 20, 50, 100).  The
planter sets end offsets `50 - 8 - 1 = 41` and `100 - 8 - 3 = 89`: the gaps
to the next start offsets are 9 and 11, so no fixed separator width `w`
satisfies both subtractions — the separator is 8 plus the current tree's
root-id string length, not a fixed width. -/
theorem plantGroup_separator_not_fixed :
    ((plantGroup [⟨5, 0, 20, 1⟩, ⟨100, 0, 50, 3⟩, ⟨7, 0, 100, 1⟩]
        (fun _ => 200)).getD 0 default).ei = 41 ∧
    ((plantGroup [⟨5, 0, 20, 1⟩, ⟨100, 0, 50, 3⟩, ⟨7, 0, 100, 1⟩]
        (fun _ => 200)).getD 1 default).ei = 89 ∧
    ¬∃ w : Int, (41 : Int) = 50 - w ∧ (89 : Int) = 100 - w := by
  refine ⟨by decide, by decide, ?_⟩
  rintro ⟨w, h1, h2⟩
  omega

/-- C3 amended: after sorting manifest entries by (file id, start offset),
every tree that is not the last entry for its file gets an end offset equal
to the next same-file entry's start offset minus a separator width of 8
(`len("tree ")+3`) plus the length of the tree's own root id string, and
every tree that is the last entry for its file gets its end offset from a
direct end-of-file probe on that file. -/
theorem plantGroup_end_offsets (entries : List LocEntry) (fsize : Nat → Nat)
    (hne : entries ≠ []) :
    (plantGroup entries fsize).length = entries.length ∧
    ∀ i, i < entries.length →
      (((plantGroup entries fsize).getD i default).uid
          = ((List.insertionSort locLe entries).getD i default).uid ∧
       ((plantGroup entries fsize).getD i default).fi
          = ((List.insertionSort locLe entries).getD i default).fid ∧
       ((plantGroup entries fsize).getD i default).si
          = ((List.insertionSort locLe entries).getD i default).si) ∧
      ((i + 1 < entries.length ∧
          ((List.insertionSort locLe entries).getD (i + 1) default).fid
            = ((List.insertionSort locLe entries).getD i default).fid) →
        ((plantGroup entries fsize).getD i default).ei
          = (((List.insertionSort locLe entries).getD (i + 1) default).si : Int)
            - ctGroupLkey
            - ((List.insertionSort locLe entries).getD i default).idlen) ∧
      (¬(i + 1 < entries.length ∧
          ((List.insertionSort locLe entries).getD (i + 1) default).fid
            = ((List.insertionSort locLe entries).getD i default).fid) →
        ((plantGroup entries fsize).getD i default).ei
          = (fsize (((List.insertionSort locLe entries).getD i default).fid) : Int)) := by
  have hlenf : (List.insertionSort (· ≤ ·) (entries.map LocEntry.fid)).length
      = entries.length := by
    rw [List.length_insertionSort, List.length_map]
  constructor
  · unfold plantGroup
    simp [List.enum_length, List.length_insertionSort]
  intro i hi
  rw [plantGroup_getD entries fsize i hi]
  by_cases hcond : i + 1 < entries.length ∧
      ((List.insertionSort locLe entries).getD (i + 1) default).fid
        = ((List.insertionSort locLe entries).getD i default).fid
  · have hsame : (List.insertionSort (· ≤ ·) (entries.map LocEntry.fid)).getD (i + 1)
        ((List.insertionSort (· ≤ ·) (entries.map LocEntry.fid)).getD
          (entries.length - 1) 0 + 1)
        = (List.insertionSort (· ≤ ·) (entries.map LocEntry.fid)).getD i 0 := by
      rw [fids_getD entries (i + 1) hcond.1, fids_getD entries i hi]
      exact hcond.2
    rw [if_pos hsame]
    exact ⟨⟨rfl, rfl, rfl⟩, fun _ => rfl, fun hc => absurd hcond hc⟩
  · have hdiff : ¬((List.insertionSort (· ≤ ·) (entries.map LocEntry.fid)).getD (i + 1)
        ((List.insertionSort (· ≤ ·) (entries.map LocEntry.fid)).getD
          (entries.length - 1) 0 + 1)
        = (List.insertionSort (· ≤ ·) (entries.map LocEntry.fid)).getD i 0) := by
      intro heq
      apply hcond
      by_cases hi1 : i + 1 < entries.length
      · refine ⟨hi1, ?_⟩
        rw [← fids_getD entries (i + 1) hi1
            ((List.insertionSort (· ≤ ·) (entries.map LocEntry.fid)).getD
              (entries.length - 1) 0 + 1),
            ← fids_getD entries i hi 0]
        exact heq
      · exfalso
        have hieq : i = entries.length - 1 := by omega
        have hout : (List.insertionSort (· ≤ ·) (entries.map LocEntry.fid)).length ≤ i + 1 := by
          omega
        rw [List.getD_eq_default _ _ hout, hieq] at heq
        omega
    rw [if_neg hdiff]
    refine ⟨⟨rfl, rfl, rfl⟩, fun hc => absurd hc hcond, fun _ => ?_⟩
    rw [fids_getD entries i hi]

/-- C3 witness: a two-tree single-file manifest; the first tree's end offset
comes from the next-entry rule (50 - 8 - 1 = 41), the file's last tree's end
offset from the end-of-file probe (90). -/
theorem plantGroup_end_offsets_witness :
    ((plantGroup [⟨5, 0, 20, 1⟩, ⟨7, 0, 50, 1⟩] (fun _ => 90)).getD 0 default).ei = 41 ∧
    ((plantGroup [⟨5, 0, 20, 1⟩, ⟨7, 0, 50, 1⟩] (fun _ => 90)).getD 1 default).ei = 90 := by
  obtain ⟨-, hall⟩ := plantGroup_end_offsets [⟨5, 0, 20, 1⟩, ⟨7, 0, 50, 1⟩]
    (fun _ => 90) (by decide)
  have h0 := (hall 0 (by decide)).2.1 ⟨by decide, by decide⟩
  have h1 := (hall 1 (by decide)).2.2 (by decide)
  constructor
  · rw [h0]; decide
  · rw [h1]; decide

/-! ## Supporting lemmas for the flat block scanner: slices and finds -/

theorem slice_length (content : List Char) (s m : Nat) (hsm : s + m ≤ content.length) :
    ((content.drop s).take m).length = m := by
  rw [List.length_take, List.length_drop]
  omega

theorem slice_getD (content : List Char) (s m j : Nat) (hj : j < m)
    (hsm : s + m ≤ content.length) :
    ((content.drop s).take m).getD j ' ' = content.getD (s + j) ' ' := by
  have h1 : j < ((content.drop s).take m).length := by
    rw [slice_length content s m hsm]
    exact hj
  rw [List.getD_eq_getElem _ _ h1, List.getElem_take, List.getElem_drop,
      List.getD_eq_getElem _ _ (by omega)]

theorem drop_getD (l : List Char) (s q : Nat) (hq : s + q < l.length) :
    (l.drop s).getD q ' ' = l.getD (s + q) ' ' := by
  have h1 : q < (l.drop s).length := by
    rw [List.length_drop]
    omega
  rw [List.getD_eq_getElem _ _ h1, List.getElem_drop, List.getD_eq_getElem _ _ hq]

theorem findFrom_eq_some_iff (l : List Char) (c : Char) (start j : Nat) :
    findFrom l c start = some j ↔
      start ≤ j ∧ j < l.length ∧ l.getD j ' ' = c ∧
        ∀ r, start ≤ r → r < j → l.getD r ' ' ≠ c := by
  unfold findFrom
  constructor
  · intro h
    match hf : (l.drop start).findIdx? (fun x => x = c) with
    | none => rw [hf] at h; exact absurd h (by simp)
    | some j' =>
      rw [hf] at h
      have hj : j = start + j' := by
        simpa using h.symm
      subst hj
      obtain ⟨hlt, hidx⟩ := List.findIdx?_eq_some_iff_findIdx_eq.mp hf
      obtain ⟨hat, hbefore⟩ := (List.findIdx_eq hlt).mp hidx
      have hlt' : j' < l.length - start := by
        rw [List.length_drop] at hlt
        exact hlt
      have hjl : start + j' < l.length := by omega
      refine ⟨by omega, hjl, ?_, ?_⟩
      · have h2 : (l.drop start).getD j' ' ' = c := by
          rw [List.getD_eq_getElem _ _ hlt]
          exact of_decide_eq_true hat
        rw [drop_getD l start j' hjl] at h2
        exact h2
      · intro r hr1 hr2
        have hr' : r - start < j' := by omega
        have hb := hbefore (r - start) hr'
        have h2 : (l.drop start).getD (r - start) ' ' ≠ c := by
          rw [List.getD_eq_getElem _ _ (by rw [List.length_drop]; omega)]
          exact of_decide_eq_false hb
        rw [drop_getD l start (r - start) (by omega),
            show start + (r - start) = r from by omega] at h2
        exact h2
  · rintro ⟨h1, h2, h3, h4⟩
    have hlt : j - start < (l.drop start).length := by
      rw [List.length_drop]
      omega
    have hfi : (l.drop start).findIdx (fun x => x = c) = j - start := by
      rw [List.findIdx_eq hlt]
      constructor
      · have hd : (l.drop start).getD (j - start) ' ' = c := by
          rw [drop_getD l start (j - start) (by omega),
              show start + (j - start) = j from by omega]
          exact h3
        rw [List.getD_eq_getElem _ _ hlt] at hd
        exact decide_eq_true hd
      · intro r hr
        have hd : (l.drop start).getD r ' ' ≠ c := by
          rw [drop_getD l start r (by omega)]
          exact h4 (start + r) (by omega) (by omega)
        rw [List.getD_eq_getElem _ _ (by omega : r < (l.drop start).length)] at hd
        exact decide_eq_false hd
    have : (l.drop start).findIdx? (fun x => x = c) = some (j - start) :=
      List.findIdx?_eq_some_iff_findIdx_eq.mpr ⟨hlt, hfi⟩
    rw [this]
    simp
    omega

theorem findFrom_eq_none_of (l : List Char) (c : Char) (start : Nat)
    (h : ∀ r, start ≤ r → r < l.length → l.getD r ' ' ≠ c) :
    findFrom l c start = none := by
  unfold findFrom
  have : (l.drop start).findIdx? (fun x => x = c) = none := by
    rw [List.findIdx?_eq_none_iff]
    intro x hx
    obtain ⟨i, hi, hxi⟩ := List.mem_iff_getElem.mp hx
    have hil := hi
    rw [List.length_drop] at hil
    have := h (start + i) (by omega) (by omega)
    rw [List.getD_eq_getElem _ _ (by omega : start + i < l.length)] at this
    rw [← hxi, List.getElem_drop]
    simp only [decide_eq_false_iff_not]
    exact this
  rw [this]

theorem sliceFind_some (content : List Char) (s m : Nat) (hsm : s + m ≤ content.length)
    (c : Char) (ss q : Nat) (hq1 : s + ss ≤ q) (hq2 : q < s + m)
    (hc : content.getD q ' ' = c)
    (hfirst : ∀ r, s + ss ≤ r → r < q → content.getD r ' ' ≠ c) :
    findFrom ((content.drop s).take m) c ss = some (q - s) := by
  rw [findFrom_eq_some_iff]
  refine ⟨by omega, by rw [slice_length content s m hsm]; omega, ?_, ?_⟩
  · rw [slice_getD content s m (q - s) (by omega) hsm,
        show s + (q - s) = q from by omega]
    exact hc
  · intro r hr1 hr2
    rw [slice_getD content s m r (by omega) hsm]
    exact hfirst (s + r) (by omega) (by omega)

theorem sliceFind_none (content : List Char) (s m : Nat) (hsm : s + m ≤ content.length)
    (c : Char) (ss : Nat)
    (h : ∀ r, s + ss ≤ r → r < s + m → content.getD r ' ' ≠ c) :
    findFrom ((content.drop s).take m) c ss = none := by
  apply findFrom_eq_none_of
  intro r hr1 hr2
  rw [slice_length content s m hsm] at hr2
  rw [slice_getD content s m r hr2 hsm]
  exact h (s + r) (by omega) (by omega)

theorem readLine_spec (content : List Char) (pos L : Nat) (hpos : pos ≤ L)
    (hL : L < content.length) (hnl : content.getD L ' ' = '\n')
    (hfirst : ∀ r, pos ≤ r → r < L → content.getD r ' ' ≠ '\n') :
    readLine content pos = (content.drop pos).take (L - pos + 1) := by
  unfold readLine
  have hlt : L - pos < (content.drop pos).length := by
    rw [List.length_drop]
    omega
  have hfi : (content.drop pos).findIdx (fun x => x = '\n') = L - pos := by
    rw [List.findIdx_eq hlt]
    constructor
    · have hd : (content.drop pos).getD (L - pos) ' ' = '\n' := by
        rw [drop_getD content pos (L - pos) (by omega),
            show pos + (L - pos) = L from by omega]
        exact hnl
      rw [List.getD_eq_getElem _ _ hlt] at hd
      exact decide_eq_true hd
    · intro r hr
      have hd : (content.drop pos).getD r ' ' ≠ '\n' := by
        rw [drop_getD content pos r (by omega)]
        exact hfirst (pos + r) (by omega) (by omega)
      rw [List.getD_eq_getElem _ _ (by omega : r < (content.drop pos).length)] at hd
      exact decide_eq_false hd
  rw [List.findIdx?_eq_some_iff_findIdx_eq.mpr ⟨hlt, hfi⟩]

/-! ## Supporting lemmas for the flat block scanner: marker counting -/

theorem msCount_mono (ms : List Nat) (x y : Nat) (h : x ≤ y) :
    msCount ms x ≤ msCount ms y := by
  unfold msCount
  induction ms with
  | nil => simp
  | cons a rest ih =>
    rw [List.countP_cons, List.countP_cons]
    have hcase : (if (decide (a < x)) = true then 1 else 0)
        ≤ (if (decide (a < y)) = true then 1 else 0) := by
      by_cases ha : a < x
      · simp [ha, Nat.lt_of_lt_of_le ha h]
      · simp [ha]
    omega

theorem msCount_le_length (ms : List Nat) (x : Nat) : msCount ms x ≤ ms.length :=
  List.countP_le_length _

theorem msCount_succ (ms : List Nat) (x : Nat) (hnd : ms.Nodup) :
    msCount ms (x + 1) = msCount ms x + (if x ∈ ms then 1 else 0) := by
  unfold msCount
  induction ms with
  | nil => simp
  | cons a rest ih =>
    rw [List.nodup_cons] at hnd
    rw [List.countP_cons, List.countP_cons, ih hnd.2]
    by_cases hax : a = x
    · subst hax
      have hnotin : a ∉ rest := hnd.1
      simp [hnotin]
    · by_cases hmem : x ∈ rest
      · have hx : x ∈ a :: rest := List.mem_cons_of_mem a hmem
        simp only [hmem, if_true, hx, if_true]
        by_cases hax' : a < x
        · have : a < x + 1 := by omega
          simp [hax', this]
        · have : ¬(a < x + 1) := by omega
          simp [hax', this]
      · have hx : x ∉ a :: rest := by
          intro hc
          rcases List.mem_cons.mp hc with hc | hc
          · exact hax hc.symm
          · exact hmem hc
        simp only [hmem, if_neg, hx]
        by_cases hax' : a < x
        · have : a < x + 1 := by omega
          simp [hax', this]
        · have : ¬(a < x + 1) := by omega
          simp [hax', this]

theorem msCount_all (ms : List Nat) (x : Nat) (h : ∀ m ∈ ms, m < x) :
    msCount ms x = ms.length := by
  unfold msCount
  rw [List.countP_eq_length]
  intro a ha
  simpa using h a ha

theorem msCount_first_ge (ms : List Nat) (x : Nat) (hs : List.Pairwise (· < ·) ms) :
    (∀ j, j < msCount ms x → ms.getD j 0 < x) ∧
    (msCount ms x < ms.length → x ≤ ms.getD (msCount ms x) 0) := by
  induction ms with
  | nil => simp [msCount]
  | cons a rest ih =>
    rw [List.pairwise_cons] at hs
    obtain ⟨ha, hrest⟩ := hs
    obtain ⟨ih1, ih2⟩ := ih hrest
    by_cases hax : a < x
    · have hcnt : msCount (a :: rest) x = msCount rest x + 1 := by
        unfold msCount
        rw [List.countP_cons]
        simp [hax]
      refine ⟨?_, ?_⟩
      · intro j hj
        rw [hcnt] at hj
        cases j with
        | zero => simpa using hax
        | succ j' =>
          rw [List.getD_cons_succ]
          exact ih1 j' (by omega)
      · intro hlen
        rw [hcnt] at hlen ⊢
        rw [List.getD_cons_succ]
        exact ih2 (by simpa using hlen)
    · have hcnt : msCount (a :: rest) x = 0 := by
        unfold msCount
        rw [List.countP_cons]
        simp only [hax, decide_eq_true_eq, if_neg]
        rw [List.countP_eq_zero.mpr]
        · simp [hax]
        · intro e he
          have := ha e he
          simp only [decide_eq_true_eq]
          omega
      rw [hcnt]
      exact ⟨fun j hj => by omega, fun _ => by rw [List.getD_cons_zero]; omega⟩

theorem msCount_getD (ms : List Nat) (hs : List.Pairwise (· < ·) ms) :
    ∀ j, j < ms.length → msCount ms (ms.getD j 0) = j := by
  induction ms with
  | nil => intro j hj; simp at hj
  | cons a rest ih =>
    rw [List.pairwise_cons] at hs
    obtain ⟨ha, hrest⟩ := hs
    intro j hj
    cases j with
    | zero =>
      rw [List.getD_cons_zero]
      unfold msCount
      rw [List.countP_cons]
      have hz : rest.countP (fun q => q < a) = 0 := by
        rw [List.countP_eq_zero]
        intro e he
        have h2 : a < e := ha e he
        intro hc
        have h3 : e < a := of_decide_eq_true hc
        omega
      rw [hz]
      have hfalse : (decide (a < a)) = false := decide_eq_false (by omega)
      rw [hfalse]
      simp
    | succ j' =>
      have hj' : j' < rest.length := by simpa using hj
      rw [List.getD_cons_succ]
      unfold msCount
      rw [List.countP_cons]
      have hlt : a < rest.getD j' 0 := by
        have hmem : rest.getD j' 0 ∈ rest := by
          rw [List.getD_eq_getElem _ _ hj']
          exact List.getElem_mem hj'
        exact ha _ hmem
      simp only [hlt, decide_eq_true_eq, if_pos]
      have := ih hrest j' hj'
      unfold msCount at this
      omega

theorem slice_count_hash (content : List Char) (hoffset : Nat) (ms Ls : List Nat)
    (hspec : FlatCatalogSpec content hoffset ms Ls) (s : Nat) (hs : hoffset ≤ s) :
    ∀ (m : Nat), s + m ≤ content.length →
    ((content.drop s).take m).count '#' = msCount ms (s + m) - msCount ms s := by
  have hnd : ms.Nodup := List.Pairwise.imp Nat.ne_of_lt hspec.mono
  intro m
  induction m with
  | zero => simp
  | succ m ih =>
    intro hsm
    have hsm' : s + m ≤ content.length := by omega
    have htake : (content.drop s).take (m + 1)
        = (content.drop s).take m ++ [content.getD (s + m) ' '] := by
      rw [List.take_succ]
      congr 1
      have hlt : m < (content.drop s).length := by
        rw [List.length_drop]
        omega
      rw [List.getElem?_eq_getElem hlt, List.getElem_drop,
          List.getD_eq_getElem _ _ (by omega : s + m < content.length)]
      rfl
    rw [htake, List.count_append, ih hsm', List.count_singleton]
    rw [show s + (m + 1) = (s + m) + 1 from by omega, msCount_succ ms (s + m) hnd]
    have hmono := msCount_mono ms s (s + m) (by omega)
    by_cases hmem : (s + m) ∈ ms
    · have hhash : content.getD (s + m) ' ' = '#' :=
        (hspec.hash_iff (s + m) (by omega) (by omega)).mpr hmem
      rw [hhash]
      simp [hmem]
      omega
    · have hhash : content.getD (s + m) ' ' ≠ '#' := by
        intro hc
        exact hmem ((hspec.hash_iff (s + m) (by omega) (by omega)).mp hc)
      have hfb : (content.getD (s + m) ' ' == '#') = false := by
        simpa using hhash
      rw [hfb]
      simp [hmem]

theorem ms_getD_mono (ms : List Nat) (hs : List.Pairwise (· < ·) ms) (i j : Nat)
    (hij : i ≤ j) (hj : j < ms.length) : ms.getD i 0 ≤ ms.getD j 0 := by
  rcases Nat.lt_or_ge i j with h | h
  · have := List.pairwise_iff_getElem.mp hs i j (by omega) hj h
    rw [List.getD_eq_getElem _ _ (by omega : i < ms.length), List.getD_eq_getElem _ _ hj]
    omega
  · have : i = j := by omega
    subst this
    exact Nat.le_refl _

theorem eis_take_step (ms : List Nat) (c : Nat) (hc : c < ms.length) (hpos : 0 < c) :
    (ms.take (c + 1)).drop 1 = (ms.take c).drop 1 ++ [ms.getD c 0] := by
  rw [List.take_succ, List.getElem?_eq_getElem hc]
  rw [List.drop_append_of_le_length (by rw [List.length_take]; omega)]
  rw [List.getD_eq_getElem _ _ hc]
  rfl

theorem eis_take_one (ms : List Nat) : (ms.take 1).drop 1 = [] := by
  match ms with
  | [] => rfl
  | a :: rest => rfl

theorem mem_ms_index (ms : List Nat) (r : Nat) (h : r ∈ ms) :
    ∃ j, j < ms.length ∧ ms.getD j 0 = r := by
  obtain ⟨j, hj, hje⟩ := List.mem_iff_getElem.mp h
  exact ⟨j, hj, by rw [List.getD_eq_getElem _ _ hj]; exact hje⟩

theorem innerLoop_step_inline (content : List Char) (s f : Nat) (buff : List Char)
    (ss P inl : Nat) (st : FlatState)
    (hfind : findFrom buff '#' ss = some P)
    (hnl : findFrom buff '\n' (P + 1) = some inl) :
    innerLoop content s (f + 1) buff ss st
      = innerLoop content s f buff (P + 1)
          { roots := st.roots ++ [(parseIntLoose ((buff.take inl).drop (P + ctFlatLkey)),
              s + inl + 1)],
            eis := if 0 < st.roots.length then st.eis ++ [s + P - 1] else st.eis } := by
  rw [innerLoop, hfind]
  dsimp only
  rw [hnl]

theorem innerLoop_step_extend (content : List Char) (s f : Nat) (buff : List Char)
    (ss P : Nat) (st : FlatState)
    (hfind : findFrom buff '#' ss = some P)
    (hnl : findFrom buff '\n' (P + 1) = none) :
    innerLoop content s (f + 1) buff ss st
      = innerLoop content s f (buff ++ readLine content (s + buff.length)) (P + 1)
          { roots := st.roots ++ [(parseIntLoose
              (((buff ++ readLine content (s + buff.length)).take
                  (buff ++ readLine content (s + buff.length)).length).drop
                (P + ctFlatLkey)),
              s + (buff ++ readLine content (s + buff.length)).length + 1)],
            eis := if 0 < st.roots.length then st.eis ++ [s + P - 1] else st.eis } := by
  rw [innerLoop, hfind]
  dsimp only
  rw [hnl]

/-- One full induction over the marker loop: starting with the unextended
block slice `[s, s+m)`, a search start `ss` with exactly `c` markers below
`s + ss`, and a state holding `c` planted roots, the loop plants every
marker of the block, assigns `ms[j] - 1` as the end offset of each tree
`j - 1` for `0 < j`, and the block text grows past `s + m` exactly when the
block's last marker's newline falls outside the block. -/
theorem innerLoop_spec (content : List Char) (hoffset : Nat) (ms Ls : List Nat)
    (hspec : FlatCatalogSpec content hoffset ms Ls) (s : Nat) (hs : hoffset ≤ s) :
    ∀ (fuel m c ss : Nat) (st : FlatState),
    s + m ≤ content.length →
    fuel = msCount ms (s + m) - c →
    msCount ms (s + ss) = c →
    c ≤ msCount ms (s + m) →
    ss ≤ m →
    st.roots.length = c →
    st.eis = ((ms.take c).drop 1).map (fun q => q - 1) →
    ((innerLoop content s fuel ((content.drop s).take m) ss st).2.roots.length
        = msCount ms (s + m) ∧
     (innerLoop content s fuel ((content.drop s).take m) ss st).2.eis
        = ((ms.take (msCount ms (s + m))).drop 1).map (fun q => q - 1) ∧
     (innerLoop content s fuel ((content.drop s).take m) ss st).1.length
        = (if msCount ms (s + m) ≠ c ∧
              s + m ≤ Ls.getD (msCount ms (s + m) - 1) 0
           then Ls.getD (msCount ms (s + m) - 1) 0 + 1 - s else m)) := by
  intro fuel
  induction fuel with
  | zero =>
    intro m c ss st hsm hfuel hcnt hcle hss hroots heis
    have hbc : msCount ms (s + m) = c := by omega
    rw [innerLoop]
    refine ⟨by rw [hroots, hbc], by rw [heis, hbc], ?_⟩
    rw [if_neg (by intro hcon; exact hcon.1 hbc), slice_length content s m hsm]
  | succ f ih =>
    intro m c ss st hsm hfuel hcnt hcle hss hroots heis
    have hclt : c < msCount ms (s + m) := by omega
    have hble : msCount ms (s + m) ≤ ms.length := msCount_le_length ms (s + m)
    have hcltn : c < ms.length := by omega
    have hfirstge := msCount_first_ge ms (s + ss) hspec.mono
    have hPge : s + ss ≤ ms.getD c 0 := by
      have := hfirstge.2 (by omega)
      rw [hcnt] at this
      exact this
    have hPlt : ms.getD c 0 < s + m := (msCount_first_ge ms (s + m) hspec.mono).1 c hclt
    have hPmem : ms.getD c 0 ∈ ms := by
      rw [List.getD_eq_getElem _ _ hcltn]
      exact List.getElem_mem hcltn
    have hPhash : content.getD (ms.getD c 0) ' ' = '#' :=
      (hspec.hash_iff (ms.getD c 0) (by omega) (by omega)).mpr hPmem
    have hPfirst : ∀ r, s + ss ≤ r → r < ms.getD c 0 → content.getD r ' ' ≠ '#' := by
      intro r hr1 hr2 hc
      have hrmem : r ∈ ms := (hspec.hash_iff r (by omega) (by omega)).mp hc
      obtain ⟨j, hj, hje⟩ := mem_ms_index ms r hrmem
      rcases Nat.lt_or_ge j c with hjc | hjc
      · have := (msCount_first_ge ms (s + ss) hspec.mono).1 j (by rw [hcnt]; omega)
        omega
      · have := ms_getD_mono ms hspec.mono c j hjc hj
        omega
    have hfind : findFrom ((content.drop s).take m) '#' ss = some (ms.getD c 0 - s) :=
      sliceFind_some content s m hsm '#' ss (ms.getD c 0) hPge hPlt hPhash hPfirst
    have habs : s + (ms.getD c 0 - s) = ms.getD c 0 := by omega
    have hLgt : ms.getD c 0 < Ls.getD c 0 := hspec.nl_gt c hcltn
    have hLlen : Ls.getD c 0 < content.length := by
      rcases Nat.lt_or_ge (c + 1) ms.length with hc1 | hc1
      · have h1 := hspec.nl_lt_next c hc1
        have h2 : ms.getD (c + 1) 0 ∈ ms := by
          rw [List.getD_eq_getElem _ _ hc1]
          exact List.getElem_mem hc1
        have := hspec.ms_lt _ h2
        omega
      · have : c = ms.length - 1 := by omega
        rw [this]
        exact hspec.last_nl_lt
    have hmsP : msCount ms (ms.getD c 0) = c := msCount_getD ms hspec.mono c hcltn
    have hnd : ms.Nodup := List.Pairwise.imp Nat.ne_of_lt hspec.mono
    have hcnt' : msCount ms (s + (ms.getD c 0 - s + 1)) = c + 1 := by
      rw [show s + (ms.getD c 0 - s + 1) = ms.getD c 0 + 1 from by omega,
          msCount_succ ms (ms.getD c 0) hnd, hmsP, if_pos hPmem]
    by_cases hLin : Ls.getD c 0 < s + m
    · -- the newline lies inside the block: no extension
      have hnlfind : findFrom ((content.drop s).take m) '\n' (ms.getD c 0 - s + 1)
          = some (Ls.getD c 0 - s) := by
        apply sliceFind_some content s m hsm '\n' (ms.getD c 0 - s + 1) (Ls.getD c 0)
          (by omega) (by omega) (hspec.nl_at c hcltn)
        intro r hr1 hr2
        exact hspec.nl_first c hcltn r (by omega) hr2
      rw [innerLoop_step_inline content s f ((content.drop s).take m) ss
        (ms.getD c 0 - s) (Ls.getD c 0 - s) st hfind hnlfind]
      have ihres := ih m (c + 1) (ms.getD c 0 - s + 1)
        ⟨st.roots ++ [(parseIntLoose ((((content.drop s).take m).take (Ls.getD c 0 - s)).drop
            (ms.getD c 0 - s + ctFlatLkey)), s + (Ls.getD c 0 - s) + 1)],
         if 0 < st.roots.length then st.eis ++ [s + (ms.getD c 0 - s) - 1] else st.eis⟩
        hsm (by omega) hcnt' (by omega) (by omega)
        (by
          show (st.roots ++ [_]).length = c + 1
          rw [List.length_append, hroots]
          rfl)
        (by
          show (if 0 < st.roots.length then st.eis ++ [s + (ms.getD c 0 - s) - 1]
            else st.eis) = _
          rw [hroots]
          by_cases hc0 : 0 < c
          · rw [if_pos hc0, heis, eis_take_step ms c hcltn hc0, List.map_append]
            have harith : s + (ms.getD c 0 - s) - 1 = ms.getD c 0 - 1 := by omega
            rw [harith]
            rfl
          · have hc00 : c = 0 := by omega
            subst hc00
            rw [if_neg hc0, heis, show (0 : Nat) + 1 = 1 from rfl, eis_take_one]
            rfl)
      obtain ⟨ihr1, ihr2, ihr3⟩ := ihres
      refine ⟨ihr1, ihr2, ?_⟩
      rw [ihr3]
      by_cases hb1 : msCount ms (s + m) = c + 1
      · have hfalse1 : ¬(msCount ms (s + m) ≠ c + 1 ∧
            s + m ≤ Ls.getD (msCount ms (s + m) - 1) 0) := fun hcon => hcon.1 hb1
        have heq1 : msCount ms (s + m) - 1 = c := by omega
        have hfalse2 : ¬(msCount ms (s + m) ≠ c ∧
            s + m ≤ Ls.getD (msCount ms (s + m) - 1) 0) := by
          rintro ⟨-, h2⟩
          rw [heq1] at h2
          omega
        rw [if_neg hfalse1, if_neg hfalse2]
      · by_cases h2 : s + m ≤ Ls.getD (msCount ms (s + m) - 1) 0
        · rw [if_pos ⟨hb1, h2⟩, if_pos ⟨by omega, h2⟩]
        · rw [if_neg (fun hcon => h2 hcon.2), if_neg (fun hcon => h2 hcon.2)]
    · -- the newline falls outside the block: extended read, last marker of the block
      have hlast : c + 1 = msCount ms (s + m) := by
        by_contra hne'
        have hc1 : c + 1 < msCount ms (s + m) := by omega
        have hc1n : c + 1 < ms.length := by omega
        have h1 := hspec.nl_lt_next c hc1n
        have h2 : ms.getD (c + 1) 0 < s + m :=
          (msCount_first_ge ms (s + m) hspec.mono).1 (c + 1) hc1
        omega
      have hnlnone : findFrom ((content.drop s).take m) '\n' (ms.getD c 0 - s + 1)
          = none := by
        apply sliceFind_none content s m hsm '\n' (ms.getD c 0 - s + 1)
        intro r hr1 hr2
        exact hspec.nl_first c hcltn r (by omega) (by omega)
      rw [innerLoop_step_extend content s f ((content.drop s).take m) ss
        (ms.getD c 0 - s) st hfind hnlnone]
      have hbufflen : ((content.drop s).take m).length = m := slice_length content s m hsm
      have hread : readLine content (s + ((content.drop s).take m).length)
          = (content.drop (s + m)).take (Ls.getD c 0 - (s + m) + 1) := by
        rw [hbufflen]
        apply readLine_spec content (s + m) (Ls.getD c 0) (by omega) hLlen
          (hspec.nl_at c hcltn)
        intro r hr1 hr2
        exact hspec.nl_first c hcltn r (by omega) hr2
      rw [hread]
      have hgrow : (content.drop s).take m ++ (content.drop (s + m)).take
          (Ls.getD c 0 - (s + m) + 1) = (content.drop s).take (Ls.getD c 0 + 1 - s) := by
        rw [show Ls.getD c 0 + 1 - s = m + (Ls.getD c 0 - (s + m) + 1) from by omega,
            List.take_add (content.drop s) m (Ls.getD c 0 - (s + m) + 1), List.drop_drop]
      rw [hgrow]
      have hglen : ((content.drop s).take (Ls.getD c 0 + 1 - s)).length
          = Ls.getD c 0 + 1 - s :=
        slice_length content s _ (by omega)
      rw [hglen]
      have hcnt'' : msCount ms (s + (Ls.getD c 0 + 1 - s)) = msCount ms (s + m) := by
        rw [show s + (Ls.getD c 0 + 1 - s) = Ls.getD c 0 + 1 from by omega]
        have hle1 : msCount ms (s + m) ≤ msCount ms (Ls.getD c 0 + 1) :=
          msCount_mono ms _ _ (by omega)
        have hle2 : msCount ms (Ls.getD c 0 + 1) ≤ msCount ms (s + m) := by
          rcases Nat.lt_or_ge (c + 1) ms.length with hc1 | hc1
          · have hnext := hspec.nl_lt_next c hc1
            have hchar := msCount_first_ge ms (Ls.getD c 0 + 1) hspec.mono
            by_contra hcon
            have hlt2 : msCount ms (s + m) < msCount ms (Ls.getD c 0 + 1) := by omega
            have h3 := hchar.1 (msCount ms (s + m)) hlt2
            have h4 : ms.getD (c + 1) 0 ≤ ms.getD (msCount ms (s + m)) 0 := by
              apply ms_getD_mono ms hspec.mono (c + 1) (msCount ms (s + m)) (by omega)
              have := msCount_le_length ms (Ls.getD c 0 + 1)
              omega
            omega
          · have h5 : msCount ms (Ls.getD c 0 + 1) ≤ ms.length :=
              msCount_le_length _ _
            have h6 : msCount ms (s + m) = ms.length := by omega
            omega
        omega
      have ihres := ih (Ls.getD c 0 + 1 - s) (c + 1) (ms.getD c 0 - s + 1)
        ⟨st.roots ++ [(parseIntLoose ((((content.drop s).take (Ls.getD c 0 + 1 - s)).take
            (Ls.getD c 0 + 1 - s)).drop (ms.getD c 0 - s + ctFlatLkey)),
            s + (Ls.getD c 0 + 1 - s) + 1)],
         if 0 < st.roots.length then st.eis ++ [s + (ms.getD c 0 - s) - 1] else st.eis⟩
        (by omega) (by rw [hcnt'']; omega) hcnt' (by rw [hcnt'']; omega) (by omega)
        (by
          show (st.roots ++ [_]).length = c + 1
          rw [List.length_append, hroots]
          rfl)
        (by
          show (if 0 < st.roots.length then st.eis ++ [s + (ms.getD c 0 - s) - 1]
            else st.eis) = _
          rw [hroots]
          by_cases hc0 : 0 < c
          · rw [if_pos hc0, heis, eis_take_step ms c hcltn hc0, List.map_append]
            have harith : s + (ms.getD c 0 - s) - 1 = ms.getD c 0 - 1 := by omega
            rw [harith]
            rfl
          · have hc00 : c = 0 := by omega
            subst hc00
            rw [if_neg hc0, heis, show (0 : Nat) + 1 = 1 from rfl, eis_take_one]
            rfl)
      rw [hcnt''] at ihres
      obtain ⟨ihr1, ihr2, ihr3⟩ := ihres
      refine ⟨ihr1, ihr2, ?_⟩
      rw [ihr3, if_neg (fun hcon => hcon.1 hlast.symm),
          show msCount ms (s + m) - 1 = c from by omega]
      rw [if_pos ⟨by omega, by omega⟩]

/-- The block loop planted the whole catalog: starting anywhere consistent
(`msCount ms offset` markers already planted, offset at or past the header),
with enough fuel, it stops exactly at end-of-file having planted every
marker and assigned `ms[j] - 1` as tree `j - 1`'s end offset. -/
theorem blockLoop_spec (content : List Char) (hoffset : Nat) (ms Ls : List Nat)
    (hspec : FlatCatalogSpec content hoffset ms Ls) (blockSize : Nat)
    (hbs : 0 < blockSize) :
    ∀ (fuel offset : Nat) (st : FlatState),
    hoffset ≤ offset → offset ≤ content.length →
    content.length - offset ≤ fuel * blockSize →
    st.roots.length = msCount ms offset →
    st.eis = ((ms.take (msCount ms offset)).drop 1).map (fun q => q - 1) →
    ((blockLoop content blockSize fuel offset st).1 = content.length ∧
     (blockLoop content blockSize fuel offset st).2.roots.length = ms.length ∧
     (blockLoop content blockSize fuel offset st).2.eis
        = (ms.drop 1).map (fun q => q - 1)) := by
  intro fuel
  induction fuel with
  | zero =>
    intro offset st hoff hlen hfuel hroots heis
    have hoffeq : offset = content.length := by
      simp at hfuel
      omega
    have hall : msCount ms offset = ms.length := by
      rw [hoffeq]
      exact msCount_all ms content.length (fun q hq => hspec.ms_lt q hq)
    rw [blockLoop]
    exact ⟨hoffeq, by rw [hroots, hall], by rw [heis, hall, List.take_length]⟩
  | succ fuel ih =>
    intro offset st hoff hlen hfuel hroots heis
    have hmul : (fuel + 1) * blockSize = fuel * blockSize + blockSize := by ring
    by_cases hend : offset = content.length
    · have hall : msCount ms offset = ms.length := by
        rw [hend]
        exact msCount_all ms content.length (fun q hq => hspec.ms_lt q hq)
      rw [blockLoop]
      dsimp only
      rw [if_pos (by omega : min blockSize (content.length - offset) = 0)]
      exact ⟨hend, by rw [hroots, hall], by rw [heis, hall, List.take_length]⟩
    · have hofflt : offset < content.length := by omega
      have hm1 : 0 < min blockSize (content.length - offset) := by
        omega
      rw [blockLoop]
      dsimp only
      rw [if_neg (by omega : ¬min blockSize (content.length - offset) = 0)]
      have hcount := slice_count_hash content hoffset ms Ls hspec offset hoff
        (min blockSize (content.length - offset)) (by omega)
      rw [hcount]
      have hinner := innerLoop_spec content hoffset ms Ls hspec offset hoff
        (msCount ms (offset + min blockSize (content.length - offset)) - msCount ms offset)
        (min blockSize (content.length - offset)) (msCount ms offset) 0 st
        (by omega) rfl (by rw [Nat.add_zero]) (msCount_mono ms _ _ (by omega)) (by omega)
        hroots heis
      obtain ⟨hr1, hr2, hr3⟩ := hinner
      rw [hr3]
      by_cases hext : msCount ms (offset + min blockSize (content.length - offset))
            ≠ msCount ms offset ∧
          offset + min blockSize (content.length - offset)
            ≤ Ls.getD (msCount ms (offset + min blockSize (content.length - offset)) - 1) 0
      · rw [if_pos hext]
        have hble : msCount ms (offset + min blockSize (content.length - offset))
            ≤ ms.length := msCount_le_length _ _
        have hbpos : 0 < msCount ms (offset + min blockSize (content.length - offset)) := by
          have := msCount_mono ms offset (offset + min blockSize (content.length - offset))
            (by omega)
          omega
        have hLblt : Ls.getD (msCount ms (offset + min blockSize
            (content.length - offset)) - 1) 0 < content.length := by
          rcases Nat.lt_or_ge (msCount ms (offset + min blockSize (content.length - offset)))
              ms.length with hb | hb
          · have h1 := hspec.nl_lt_next
              (msCount ms (offset + min blockSize (content.length - offset)) - 1)
              (by omega)
            have h2 : ms.getD (msCount ms (offset + min blockSize
                (content.length - offset))) 0 ∈ ms := by
              rw [List.getD_eq_getElem _ _ (by omega : msCount ms (offset + min blockSize
                (content.length - offset)) < ms.length)]
              exact List.getElem_mem _
            have h3 := hspec.ms_lt _ h2
            rw [show msCount ms (offset + min blockSize (content.length - offset)) - 1 + 1
                = msCount ms (offset + min blockSize (content.length - offset))
              from by omega] at h1
            omega
          · rw [show msCount ms (offset + min blockSize (content.length - offset)) - 1
                = ms.length - 1 from by omega]
            exact hspec.last_nl_lt
        have hcntnew : msCount ms (offset + (Ls.getD (msCount ms (offset + min blockSize
            (content.length - offset)) - 1) 0 + 1 - offset))
            = msCount ms (offset + min blockSize (content.length - offset)) := by
          rw [show offset + (Ls.getD (msCount ms (offset + min blockSize
              (content.length - offset)) - 1) 0 + 1 - offset)
            = Ls.getD (msCount ms (offset + min blockSize
              (content.length - offset)) - 1) 0 + 1 from by omega]
          have hle1 : msCount ms (offset + min blockSize (content.length - offset))
              ≤ msCount ms (Ls.getD (msCount ms (offset + min blockSize
                (content.length - offset)) - 1) 0 + 1) :=
            msCount_mono ms _ _ (by omega)
          have hle2 : msCount ms (Ls.getD (msCount ms (offset + min blockSize
              (content.length - offset)) - 1) 0 + 1)
              ≤ msCount ms (offset + min blockSize (content.length - offset)) := by
            rcases Nat.lt_or_ge (msCount ms (offset + min blockSize
                (content.length - offset))) ms.length with hb | hb
            · by_contra hcon
              have hlt2 := msCount_first_ge ms (Ls.getD (msCount ms (offset + min blockSize
                  (content.length - offset)) - 1) 0 + 1) hspec.mono
              have h3 := hlt2.1 (msCount ms (offset + min blockSize
                (content.length - offset))) (by omega)
              have h1 := hspec.nl_lt_next
                (msCount ms (offset + min blockSize (content.length - offset)) - 1)
                (by omega)
              rw [show msCount ms (offset + min blockSize (content.length - offset)) - 1 + 1
                  = msCount ms (offset + min blockSize (content.length - offset))
                from by omega] at h1
              omega
            · have h5 := msCount_le_length ms (Ls.getD (msCount ms (offset + min blockSize
                (content.length - offset)) - 1) 0 + 1)
              omega
          omega
        have ihres := ih (offset + (Ls.getD (msCount ms (offset + min blockSize
            (content.length - offset)) - 1) 0 + 1 - offset))
          (innerLoop content offset (msCount ms (offset + min blockSize
            (content.length - offset)) - msCount ms offset)
            ((content.drop offset).take (min blockSize (content.length - offset))) 0 st).2
          (by omega) (by omega) (by omega)
          (by rw [hr1, hcntnew]) (by rw [hr2, hcntnew])
        exact ihres
      · rw [if_neg hext]
        have hbc : msCount ms (offset + min blockSize (content.length - offset))
              = msCount ms offset ∨
            Ls.getD (msCount ms (offset + min blockSize (content.length - offset)) - 1) 0
              < offset + min blockSize (content.length - offset) := by
          by_cases h1 : msCount ms (offset + min blockSize (content.length - offset))
              = msCount ms offset
          · exact Or.inl h1
          · right
            by_contra h2
            exact hext ⟨h1, by omega⟩
        have hcnteq : msCount ms (offset + min blockSize (content.length - offset))
            = msCount ms (offset + min blockSize (content.length - offset)) := rfl
        have ihres := ih (offset + min blockSize (content.length - offset))
          (innerLoop content offset (msCount ms (offset + min blockSize
            (content.length - offset)) - msCount ms offset)
            ((content.drop offset).take (min blockSize (content.length - offset))) 0 st).2
          (by omega) (by omega) (by omega) hr1 hr2
        exact ihres

/-! ## Supporting lemmas: the rendered catalog satisfies the scanner spec -/

theorem renderTree_length (t : FlatTree) :
    (renderTree t).length = 7 + t.idStr.length + t.body.length := by
  unfold renderTree
  simp
  omega

theorem renderTree_split (t : FlatTree) :
    renderTree t = ('#' :: ("tree ".toList ++ t.idStr)) ++ ('\n' :: t.body) := by
  unfold renderTree
  simp

theorem markerPositionsFrom_length : ∀ (ts : List FlatTree) (pos : Nat),
    (markerPositionsFrom pos ts).length = ts.length := by
  intro ts
  induction ts with
  | nil => intro pos; rfl
  | cons t ts ih =>
    intro pos
    rw [markerPositionsFrom, List.length_cons, ih, List.length_cons]

theorem markerNewlinesFrom_length : ∀ (ts : List FlatTree) (pos : Nat),
    (markerNewlinesFrom pos ts).length = ts.length := by
  intro ts
  induction ts with
  | nil => intro pos; rfl
  | cons t ts ih =>
    intro pos
    rw [markerNewlinesFrom, List.length_cons, ih, List.length_cons]

theorem markerPositionsFrom_mem_bounds : ∀ (ts : List FlatTree) (pos : Nat),
    ∀ q ∈ markerPositionsFrom pos ts,
      pos ≤ q ∧ q + 7 ≤ pos + ((ts.map renderTree).flatten).length := by
  intro ts
  induction ts with
  | nil => intro pos q hq; simp [markerPositionsFrom] at hq
  | cons t ts ih =>
    intro pos q hq
    rw [markerPositionsFrom] at hq
    rw [List.map_cons, List.flatten_cons, List.length_append]
    rcases List.mem_cons.mp hq with hq | hq
    · subst hq
      have := renderTree_length t
      omega
    · have := ih (pos + (renderTree t).length) q hq
      omega

theorem markerPositionsFrom_pairwise : ∀ (ts : List FlatTree) (pos : Nat),
    List.Pairwise (· < ·) (markerPositionsFrom pos ts) := by
  intro ts
  induction ts with
  | nil => intro pos; simp [markerPositionsFrom]
  | cons t ts ih =>
    intro pos
    rw [markerPositionsFrom, List.pairwise_cons]
    refine ⟨?_, ih (pos + (renderTree t).length)⟩
    intro q hq
    have h1 := (markerPositionsFrom_mem_bounds ts (pos + (renderTree t).length) q hq).1
    have := renderTree_length t
    omega

theorem markerNewlinesFrom_getD : ∀ (ts : List FlatTree) (pos : Nat) (j : Nat),
    j < ts.length →
    (markerNewlinesFrom pos ts).getD j 0
      = (markerPositionsFrom pos ts).getD j 0 + 6 + (ts.getD j default).idStr.length := by
  intro ts
  induction ts with
  | nil => intro pos j hj; simp at hj
  | cons t ts ih =>
    intro pos j hj
    cases j with
    | zero =>
      rw [markerNewlinesFrom, markerPositionsFrom]
      rfl
    | succ j' =>
      rw [markerNewlinesFrom, markerPositionsFrom, List.getD_cons_succ,
          List.getD_cons_succ, List.getD_cons_succ]
      exact ih (pos + (renderTree t).length) j' (by simpa using hj)

theorem markerPositionsFrom_getD_succ : ∀ (ts : List FlatTree) (pos : Nat) (j : Nat),
    j + 1 < ts.length →
    (markerPositionsFrom pos ts).getD (j + 1) 0
      = (markerPositionsFrom pos ts).getD j 0 + (renderTree (ts.getD j default)).length := by
  intro ts
  induction ts with
  | nil => intro pos j hj; simp at hj
  | cons t ts ih =>
    intro pos j hj
    cases j with
    | zero =>
      rw [markerPositionsFrom, List.getD_cons_succ, List.getD_cons_zero, List.getD_cons_zero]
      match ts, hj with
      | t' :: ts', _ =>
        rw [markerPositionsFrom, List.getD_cons_zero]
    | succ j' =>
      rw [markerPositionsFrom, List.getD_cons_succ, List.getD_cons_succ,
          List.getD_cons_succ]
      exact ih (pos + (renderTree t).length) j' (by simpa using hj)

theorem markerPositionsFrom_getD_add_le : ∀ (ts : List FlatTree) (pos : Nat) (j : Nat),
    j < ts.length →
    (markerPositionsFrom pos ts).getD j 0 + (renderTree (ts.getD j default)).length
      ≤ pos + ((ts.map renderTree).flatten).length := by
  intro ts
  induction ts with
  | nil => intro pos j hj; simp at hj
  | cons t ts ih =>
    intro pos j hj
    rw [List.map_cons, List.flatten_cons, List.length_append]
    cases j with
    | zero =>
      rw [markerPositionsFrom, List.getD_cons_zero, List.getD_cons_zero]
      omega
    | succ j' =>
      rw [markerPositionsFrom, List.getD_cons_succ, List.getD_cons_succ]
      have := ih (pos + (renderTree t).length) j' (by simpa using hj)
      omega

theorem getD_mem_char (l : List Char) (q : Nat) (hq : q < l.length) :
    l.getD q ' ' ∈ l := by
  rw [List.getD_eq_getElem _ _ hq]
  exact List.getElem_mem hq

theorem segment_getD : ∀ (ts : List FlatTree) (pre : List Char) (j : Nat),
    j < ts.length → ∀ q, q < (renderTree (ts.getD j default)).length →
    (pre ++ (ts.map renderTree).flatten).getD
        ((markerPositionsFrom pre.length ts).getD j 0 + q) ' '
      = (renderTree (ts.getD j default)).getD q ' ' := by
  intro ts
  induction ts with
  | nil => intro pre j hj; simp at hj
  | cons t ts ih =>
    intro pre j hj q hq
    cases j with
    | zero =>
      rw [List.getD_cons_zero] at hq
      rw [markerPositionsFrom, List.getD_cons_zero, List.getD_cons_zero]
      rw [List.getD_append_right _ _ _ _ (by omega),
          show pre.length + q - pre.length = q from by omega,
          List.map_cons, List.flatten_cons, List.getD_append _ _ _ _ hq]
    | succ j' =>
      have hj' : j' < ts.length := by simpa using hj
      rw [List.getD_cons_succ] at hq
      rw [markerPositionsFrom, List.getD_cons_succ, List.getD_cons_succ]
      rw [List.map_cons, List.flatten_cons, ← List.append_assoc]
      have hlen : pre.length + (renderTree t).length = (pre ++ renderTree t).length := by
        rw [List.length_append]
      rw [hlen]
      exact ih (pre ++ renderTree t) j' hj' q hq

theorem renderTree_hash_iff (t : FlatTree) (hwf1 : '#' ∉ t.idStr) (hwf3 : '#' ∉ t.body)
    (q : Nat) (hq : q < (renderTree t).length) :
    ((renderTree t).getD q ' ' = '#' ↔ q = 0) := by
  constructor
  · intro hc
    by_contra hq0
    have hq1 : 1 ≤ q := by omega
    unfold renderTree at hc hq
    rw [show q = (q - 1) + 1 from by omega] at hc
    rw [List.getD_cons_succ] at hc
    have hmem : ("tree ".toList ++ t.idStr ++ '\n' :: t.body).getD (q - 1) ' '
        ∈ ("tree ".toList ++ t.idStr ++ '\n' :: t.body) := by
      apply getD_mem_char
      simp at hq ⊢
      omega
    rw [hc] at hmem
    rcases List.mem_append.mp hmem with h | h
    · rcases List.mem_append.mp h with h2 | h2
      · have : '#' ∉ "tree ".toList := by decide
        exact this h2
      · exact hwf1 h2
    · rcases List.mem_cons.mp h with h2 | h2
      · exact absurd h2.symm (by decide)
      · exact hwf3 h2
  · intro hq0
    subst hq0
    rfl

theorem renderTree_newline_at (t : FlatTree) :
    (renderTree t).getD (6 + t.idStr.length) ' ' = '\n' := by
  rw [renderTree_split]
  have hlen : ('#' :: ("tree ".toList ++ t.idStr)).length = 6 + t.idStr.length := by
    simp
    omega
  rw [List.getD_append_right _ _ _ _ (by omega), hlen]
  rw [show 6 + t.idStr.length - (6 + t.idStr.length) = 0 from by omega]
  rfl

theorem renderTree_no_newline_before (t : FlatTree) (hwf2 : '\n' ∉ t.idStr) :
    ∀ r, r < 6 + t.idStr.length → (renderTree t).getD r ' ' ≠ '\n' := by
  intro r hr hc
  have hlen : ('#' :: ("tree ".toList ++ t.idStr)).length = 6 + t.idStr.length := by
    simp
    omega
  rw [renderTree_split, List.getD_append _ _ _ _ (by omega)] at hc
  have hmem := getD_mem_char ('#' :: ("tree ".toList ++ t.idStr)) r (by omega)
  rw [hc] at hmem
  rcases List.mem_cons.mp hmem with h | h
  · exact absurd h.symm (by decide)
  · rcases List.mem_append.mp h with h2 | h2
    · have : '\n' ∉ "tree ".toList := by decide
      exact this h2
    · exact hwf2 h2

theorem catalog_hash_iff : ∀ (ts : List FlatTree) (pre : List Char),
    (∀ t ∈ ts, '#' ∉ t.idStr ∧ '\n' ∉ t.idStr ∧ '#' ∉ t.body) →
    ∀ p, pre.length ≤ p → p < pre.length + ((ts.map renderTree).flatten).length →
    ((pre ++ (ts.map renderTree).flatten).getD p ' ' = '#'
      ↔ p ∈ markerPositionsFrom pre.length ts) := by
  intro ts
  induction ts with
  | nil =>
    intro pre _ p hp1 hp2
    simp at hp2
    omega
  | cons t ts ih =>
    intro pre hwf p hp1 hp2
    have hwft := hwf t (List.mem_cons_self t ts)
    rw [markerPositionsFrom]
    rcases Nat.lt_or_ge p (pre.length + (renderTree t).length) with hpin | hpout
    · have hseg := segment_getD (t :: ts) pre 0 (by simp) (p - pre.length)
        (by rw [List.getD_cons_zero]; omega)
      rw [markerPositionsFrom, List.getD_cons_zero,
          show pre.length + (p - pre.length) = p from by omega,
          List.getD_cons_zero] at hseg
      rw [hseg]
      rw [renderTree_hash_iff t hwft.1 hwft.2.2 (p - pre.length) (by omega)]
      constructor
      · intro h
        have : p = pre.length := by omega
        exact this ▸ List.mem_cons_self _ _
      · intro h
        rcases List.mem_cons.mp h with h | h
        · omega
        · have := (markerPositionsFrom_mem_bounds ts (pre.length + (renderTree t).length)
            p h).1
          omega
    · rw [List.map_cons, List.flatten_cons, ← List.append_assoc]
      have hlen : pre.length + (renderTree t).length = (pre ++ renderTree t).length := by
        rw [List.length_append]
      have ihres := ih (pre ++ renderTree t)
        (fun t' ht' => hwf t' (List.mem_cons_of_mem t ht'))
        p (by rw [← hlen]; omega)
        (by
          rw [← hlen]
          rw [List.map_cons, List.flatten_cons, List.length_append] at hp2
          omega)
      rw [ihres, ← hlen]
      constructor
      · intro h
        exact List.mem_cons_of_mem _ h
      · intro h
        rcases List.mem_cons.mp h with h | h
        · exfalso
          have hrt := renderTree_length t
          omega
        · exact h

theorem catalog_newlines : ∀ (ts : List FlatTree) (pre : List Char),
    (∀ t ∈ ts, '#' ∉ t.idStr ∧ '\n' ∉ t.idStr ∧ '#' ∉ t.body) →
    ∀ j, j < ts.length →
    ((pre ++ (ts.map renderTree).flatten).getD
        ((markerNewlinesFrom pre.length ts).getD j 0) ' ' = '\n' ∧
     ∀ q, (markerPositionsFrom pre.length ts).getD j 0 < q →
       q < (markerNewlinesFrom pre.length ts).getD j 0 →
       (pre ++ (ts.map renderTree).flatten).getD q ' ' ≠ '\n') := by
  intro ts pre hwf j hj
  have hwfj := hwf (ts.getD j default) (by
    rw [List.getD_eq_getElem _ _ hj]
    exact List.getElem_mem hj)
  have hLs := markerNewlinesFrom_getD ts pre.length j hj
  have hrtlen := renderTree_length (ts.getD j default)
  constructor
  · rw [hLs, show (markerPositionsFrom pre.length ts).getD j 0 + 6
        + (ts.getD j default).idStr.length
      = (markerPositionsFrom pre.length ts).getD j 0
        + (6 + (ts.getD j default).idStr.length) from by omega]
    rw [segment_getD ts pre j hj (6 + (ts.getD j default).idStr.length) (by omega)]
    exact renderTree_newline_at (ts.getD j default)
  · intro q hq1 hq2
    rw [hLs] at hq2
    rw [show q = (markerPositionsFrom pre.length ts).getD j 0
        + (q - (markerPositionsFrom pre.length ts).getD j 0) from by omega]
    rw [segment_getD ts pre j hj (q - (markerPositionsFrom pre.length ts).getD j 0)
      (by omega)]
    exact renderTree_no_newline_before (ts.getD j default) hwfj.2.1
      (q - (markerPositionsFrom pre.length ts).getD j 0) (by omega)

theorem renderCatalog_flatSpec (header : List Char) (ts : List FlatTree)
    (hne : ts ≠ [])
    (hwf : ∀ t ∈ ts, '#' ∉ t.idStr ∧ '\n' ∉ t.idStr ∧ '#' ∉ t.body) :
    FlatCatalogSpec (renderCatalog header ts) header.length
      (markerPositionsFrom header.length ts) (markerNewlinesFrom header.length ts) := by
  have hcontlen : (renderCatalog header ts).length
      = header.length + ((ts.map renderTree).flatten).length := by
    unfold renderCatalog
    rw [List.length_append]
  have hmslen : (markerPositionsFrom header.length ts).length = ts.length :=
    markerPositionsFrom_length ts header.length
  refine ⟨?_, ?_, ?_, ?_, ?_, ?_, ?_, ?_, ?_, ?_, ?_, ?_⟩
  · rw [markerPositionsFrom_length, markerNewlinesFrom_length]
  · match ts, hne with
    | t :: ts', _ =>
      rw [markerPositionsFrom]
      exact List.cons_ne_nil _ _
  · match ts, hne with
    | t :: ts', _ =>
      rw [markerPositionsFrom]
      rfl
  · exact markerPositionsFrom_pairwise ts header.length
  · intro p hp1 hp2
    rw [hcontlen] at hp2
    exact catalog_hash_iff ts header hwf p hp1 hp2
  · intro q hq
    have := (markerPositionsFrom_mem_bounds ts header.length q hq).2
    rw [hcontlen]
    omega
  · intro j hj
    rw [hmslen] at hj
    exact (catalog_newlines ts header hwf j hj).1
  · intro j hj q hq1 hq2
    rw [hmslen] at hj
    exact (catalog_newlines ts header hwf j hj).2 q hq1 hq2
  · intro j hj
    rw [hmslen] at hj
    rw [markerNewlinesFrom_getD ts header.length j hj]
    omega
  · intro j hj
    rw [hmslen] at hj
    rw [markerNewlinesFrom_getD ts header.length j (by omega),
        markerPositionsFrom_getD_succ ts header.length j hj]
    have := renderTree_length (ts.getD j default)
    omega
  · rw [hmslen]
    have hj : ts.length - 1 < ts.length := by
      have : ts.length ≠ 0 := fun h => hne (List.length_eq_zero.mp h)
      omega
    rw [markerNewlinesFrom_getD ts header.length (ts.length - 1) hj, hcontlen]
    have h1 := markerPositionsFrom_getD_add_le ts header.length (ts.length - 1) hj
    have h2 := renderTree_length (ts.getD (ts.length - 1) default)
    omega
  · rw [hcontlen]
    omega

theorem ceil_mul_ge (a bs : Nat) (hbs : 0 < bs) : a ≤ ((a + bs - 1) / bs) * bs := by
  rw [Nat.mul_comm]
  have h := Nat.div_add_mod (a + bs - 1) bs
  have hub : (a + bs - 1) % bs < bs := Nat.mod_lt _ hbs
  omega

/-! ## Theorems: C6 -/

/-- C6: for a flat single-file catalog with at least one tree (a header
followed by rendered trees whose id strings and bodies are free of the
marker and newline characters that delimit marker lines), the block-scanning
planter fixes tree `i`'s end offset at the byte position immediately before
tree `i+1`'s marker, and fixes the last tree's end offset at end-of-file,
for every block size — including those where a marker's terminating newline
falls outside the current block and forces an extended read. -/
theorem plantFlat_end_offsets (header : List Char) (trees : List FlatTree)
    (blockSize : Nat) (hbs : 0 < blockSize) (hne : trees ≠ [])
    (hwf : ∀ t ∈ trees, '#' ∉ t.idStr ∧ '\n' ∉ t.idStr ∧ '#' ∉ t.body) :
    (plantFlat (renderCatalog header trees) header.length blockSize).1.length
        = trees.length ∧
    (plantFlat (renderCatalog header trees) header.length blockSize).2
      = ((markerPositionsFrom header.length trees).drop 1).map (fun p => p - 1)
        ++ [(renderCatalog header trees).length] := by
  have hspec := renderCatalog_flatSpec header trees hne hwf
  have hcnt0 : msCount (markerPositionsFrom header.length trees) header.length = 0 := by
    unfold msCount
    rw [List.countP_eq_zero]
    intro q hq
    have hb := (markerPositionsFrom_mem_bounds trees header.length q hq).1
    intro hc
    have := of_decide_eq_true hc
    omega
  have hfuel : (renderCatalog header trees).length - header.length
      ≤ (((renderCatalog header trees).length - header.length + blockSize - 1)
          / blockSize) * blockSize :=
    ceil_mul_ge ((renderCatalog header trees).length - header.length) blockSize hbs
  have hblock := blockLoop_spec (renderCatalog header trees) header.length
    (markerPositionsFrom header.length trees) (markerNewlinesFrom header.length trees)
    hspec blockSize hbs
    (((renderCatalog header trees).length - header.length + blockSize - 1) / blockSize)
    header.length ⟨[], []⟩ (Nat.le_refl _) hspec.hoff_le hfuel
    (by rw [hcnt0]; rfl)
    (by rw [hcnt0]; rfl)
  obtain ⟨hb1, hb2, hb3⟩ := hblock
  constructor
  · show (blockLoop (renderCatalog header trees) blockSize
        (((renderCatalog header trees).length - header.length + blockSize - 1) / blockSize)
        header.length ⟨[], []⟩).2.roots.length = trees.length
    rw [hb2, markerPositionsFrom_length]
  · show (blockLoop (renderCatalog header trees) blockSize
        (((renderCatalog header trees).length - header.length + blockSize - 1) / blockSize)
        header.length ⟨[], []⟩).2.eis
      ++ [(blockLoop (renderCatalog header trees) blockSize
        (((renderCatalog header trees).length - header.length + blockSize - 1) / blockSize)
        header.length ⟨[], []⟩).1] = _
    rw [hb3, hb1]

/-- C6 witness: the two-tree catalog `"#tree 12\nA 1\n#tree 345\nB 2\n"` after
an 8-character header, scanned with block size 5 — which splits the second
marker's line across blocks and forces an extended read.  The theorem applied
at this input gives first-tree end offset `markerPos(tree 1) - 1` and last
end offset = end-of-file; both sides evaluate concretely. -/
theorem plantFlat_end_offsets_witness :
    (plantFlat (renderCatalog "# hdr \n ".toList
        [⟨"12".toList, "A 1\n".toList⟩, ⟨"345".toList, "B 2\n".toList⟩])
      "# hdr \n ".toList.length 5).2 = [20, 35] ∧
    (renderCatalog "# hdr \n ".toList
        [⟨"12".toList, "A 1\n".toList⟩, ⟨"345".toList, "B 2\n".toList⟩]).length = 35 ∧
    (markerPositionsFrom "# hdr \n ".toList.length
        [⟨"12".toList, "A 1\n".toList⟩, ⟨"345".toList, "B 2\n".toList⟩]) = [8, 21] := by
  have h := plantFlat_end_offsets "# hdr \n ".toList
    [⟨"12".toList, "A 1\n".toList⟩, ⟨"345".toList, "B 2\n".toList⟩] 5
    (by decide) (List.cons_ne_nil _ _) (by decide)
  refine ⟨?_, by decide, by decide⟩
  rw [h.2]
  decide

/-! ## Theorems: C9 -/

theorem attrLoop_iff (attrs : List String) : ∀ req,
    attrLoop req attrs = true ↔ ∀ a ∈ req, a ∈ attrs := by
  intro req
  induction req with
  | nil => simp [attrLoop]
  | cons a rest ih =>
    unfold attrLoop
    by_cases h : attrs.contains a = true
    · rw [if_pos h, ih]
      have ha : a ∈ attrs := List.elem_iff.mp h
      constructor
      · intro hall b hb
        rcases List.mem_cons.mp hb with hb | hb
        · exact hb ▸ ha
        · exact hall b hb
      · intro hall b hb
        exact hall b (List.mem_cons_of_mem a hb)
    · rw [if_neg h]
      constructor
      · intro hfalse
        exact absurd hfalse (by simp)
      · intro hall
        exact absurd (List.elem_iff.mpr (hall a (List.mem_cons_self a rest))) h

/-- C9: for every candidate path, `ConsistentTreesHDF5Arbor._is_valid`
returns `True` iff the path is an HDF5 file whose top-level attributes
contain all of `Nfiles`, `TotNforests`, `TotNhalos` and `TotNtrees`, and it
returns `False` (rather than raising) when the path is not an HDF5 file. -/
theorem ctHDF5_is_valid_iff (f : CandidatePath) :
    (ctHDF5_is_valid f = true ↔
      (f.isHDF5 = true ∧ ∀ a ∈ requiredCTHDF5Attrs, a ∈ f.attrs)) ∧
    (f.isHDF5 = false → ctHDF5_is_valid f = false) := by
  unfold ctHDF5_is_valid
  cases hf : f.isHDF5 with
  | false => simp
  | true => simp [attrLoop_iff]

/-- C9 witness: a non-HDF5 path carrying all four attribute names is still
rejected, by the theorem's second conjunct at that concrete input. -/
theorem ctHDF5_is_valid_iff_witness :
    ctHDF5_is_valid ⟨false, ["Nfiles", "TotNforests", "TotNhalos", "TotNtrees"]⟩ = false :=
  (ctHDF5_is_valid_iff ⟨false, ["Nfiles", "TotNforests", "TotNhalos", "TotNtrees"]⟩).2 rfl

/-! ## Theorems: C7 -/

/-- C7: loading from an empty primary source fails fatally with
`ArborDataFileEmpty` before any node is created: the manifest loader raises
when no line follows the manifest header, the structured loader raises when
the container has no `File0` group, and in both cases the load aborts with
the error, so the planting step that would construct `TreeNode`s never
runs. -/
theorem empty_source_aborts_load (lines : List String) (c : HDF5Container)
    (fn₁ fn₂ : String) (plant₁ : String → List Nat) (plant₂ : Unit → List Nat)
    (h1 : lines.length ≤ 1) (h2 : "File0" ∉ c.groups) :
    loadArbor (parseParameterFileGroup lines fn₁) plant₁
        = Except.error (ArborError.dataFileEmpty fn₁) ∧
    loadArbor (parseParameterFileHDF5 c fn₂) plant₂
        = Except.error (ArborError.dataFileEmpty fn₂) := by
  constructor
  · have hline : readlineAt lines 1 = "" := List.getD_eq_default _ _ h1
    simp [loadArbor, parseParameterFileGroup, hline]
  · simp [loadArbor, parseParameterFileHDF5, h2]

/-- C7 witness: a manifest holding only its header line, and a structured
container without a `File0` group, both abort the load with
`ArborDataFileEmpty` and produce no nodes. -/
theorem empty_source_aborts_load_witness :
    loadArbor (parseParameterFileGroup ["# TreeRootID FileID Offset Filename"] "locations.dat")
        (fun _ => ([] : List Nat))
      = Except.error (ArborError.dataFileEmpty "locations.dat") ∧
    loadArbor (parseParameterFileHDF5 ⟨["Header"]⟩ "forest.h5") (fun _ => ([] : List Nat))
      = Except.error (ArborError.dataFileEmpty "forest.h5") :=
  empty_source_aborts_load ["# TreeRootID FileID Offset Filename"] ⟨["Header"]⟩
    "locations.dat" "forest.h5" _ _ (by decide) (by decide)

/-- C2 witness: instantiating the amended theorem at the concrete tree group
`[[7, 5], [3]]`: the root record of each tree is written as -1, the non-root
record keeps its value 5, and a header column of three roots is all -1. -/
theorem save_data_file_desc_uid_spec_witness :
    (save_data_file_desc_uid [[7, 5], [3]]).getD 0 0 = -1 ∧
    (save_data_file_desc_uid [[7, 5], [3]]).getD (0 + 1) 0 = ([7, 5] : List Int).getD 1 0 ∧
    save_header_desc_uid [4, 9, 11] = List.replicate ([4, 9, 11] : List Int).length (-1) := by
  obtain ⟨-, h2, h3, h4⟩ := save_data_file_desc_uid_spec [[7, 5], [3]]
  refine ⟨?_, ?_, h4 [4, 9, 11]⟩
  · have := h2 0 (by decide) (by decide)
    simpa using this
  · have := h3 0 1 (by decide) (by decide) (by decide)
    simpa using this

end YTree
